import Mathlib

/-!
Verification of the explicit free-list heap allocator in `src/explicit.c`.

The arena is modelled as a word-granular memory: `mem a` is the 64-bit
unsigned value stored at absolute byte address `a`.  The allocator only ever
reads and writes 8-byte words at the addresses it computes (block headers and
the two free-list link words directly after a header), so a word store
indexed by byte address is faithful for every execution the theorems below
talk about.  `memmove` is modelled on the same word granularity, copying the
whole words of the prefix and blending the trailing partial word byte-exactly
(payload addresses handed to `memmove` by `myrealloc` lie on the same 8-byte
lattice as the words they touch).

Machine integers are `Nat` with explicit reduction modulo `2 ^ 64` wherever
the C code's `size_t` / `unsigned long` arithmetic can wrap.  `NULL` is the
address `0`.  Every loop of the C source is a fuel-indexed structural
recursion; the top-level operations thread a single fuel argument and return
`none` only if the fuel runs out mid-loop (the C loops have no built-in
termination guarantee: a zero-sized block makes several of them spin).
-/

namespace ExplicitAlloc

/-- Word size of the machine: `size_t` and `unsigned long` arithmetic is mod `W`. -/
def W : Nat := 2 ^ 64

/-- Size of headers in bytes (`#define HEADER_SIZE 8` in explicit.c). -/
def HEADER_SIZE : Nat := 8

/-- Modelled from the spec: `ALIGNMENT` lives in the missing `./allocator.h`.
The spec fixes the minimum alignment at 8 bytes (8-byte header words, sizes
that are multiples of the minimum alignment, and the validator's `% 8`
checks), so `ALIGNMENT = 8`. -/
def ALIGNMENT : Nat := 8

/-- Modelled from the spec: `MAX_REQUEST_SIZE` lives in the missing
`./allocator.h`.  The spec only names a `max_single_request` bound; the
customary value for this harness is `1 <<< 30`. -/
def MAX_REQUEST_SIZE : Nat := 2 ^ 30

/-- Allocator state: the globals `segment_start`, `segment_size`, `nused`
plus the memory contents.  `mem a` is the 64-bit word stored at absolute
byte address `a`. -/
structure Heap where
  mem : Nat → Nat
  segment_start : Nat
  segment_size : Nat
  nused : Nat

/-- Read the 64-bit word stored at address `a` (stored values are reduced
mod `W` on every read so arbitrary initial memories behave like C memory). -/
def word (h : Heap) (a : Nat) : Nat := h.mem a % W

/-- Store a 64-bit word at address `a`. -/
def writeWord (h : Heap) (a v : Nat) : Heap :=
  { h with mem := fun x => if x = a then v % W else h.mem x }

/-- `isfree` from explicit.c: the least significant bit of the header is 0. -/
def isfree (h : Heap) (a : Nat) : Bool := word h a % 2 == 0

/-- `getsize` from explicit.c: the header word with the status bit masked
off (`*(unsigned long *)p & ~1UL`, i.e. the word minus its low bit). -/
def getsize (h : Heap) (a : Nat) : Nat := word h a - word h a % 2

/-- `getprevptr` from explicit.c: first link word, right after the header. -/
def getprevptr (h : Heap) (a : Nat) : Nat := word h (a + HEADER_SIZE)

/-- `getnextptr` from explicit.c: second link word. -/
def getnextptr (h : Heap) (a : Nat) : Nat := word h (a + HEADER_SIZE + 8)

/-- `setprevptr` from explicit.c. -/
def setprevptr (h : Heap) (a v : Nat) : Heap := writeWord h (a + HEADER_SIZE) v

/-- `setnextptr` from explicit.c. -/
def setnextptr (h : Heap) (a v : Nat) : Heap := writeWord h (a + HEADER_SIZE + 8) v

/-- `placeheader` from explicit.c: store `size | status` at the block start.
The `breakpoint()` on a status outside {0,1} is a debug no-op. -/
def placeheader (h : Heap) (a sz status : Nat) : Heap :=
  writeWord h a (sz ||| status)

/-- `roundup` from explicit.c.  `(sz + mult - 1) & ~(mult - 1)` in 64-bit
arithmetic, where the complement mask `~(mult - 1)` is `W - mult`; results
strictly between 0 and `HEADER_SIZE + 16` are bumped to `HEADER_SIZE + 16`
(header plus linked-list space), every other result gets 8 bytes of header
overhead added. -/
def roundup (sz mult : Nat) : Nat :=
  let r := ((sz + mult - 1) % W) &&& (W - mult)
  if 0 < r ∧ r < HEADER_SIZE + 16 then HEADER_SIZE + 16 else (r + 8) % W

/-- `myinit` from explicit.c: record the segment, zero `nused`, and place a
single header carrying the raw `heap_size` word at the base.  Always returns
`true`.  `mem0` is whatever the arena bytes held before initialisation. -/
def myinit (heap_start heap_size : Nat) (mem0 : Nat → Nat) : Heap × Bool :=
  let h : Heap :=
    { mem := mem0, segment_start := heap_start, segment_size := heap_size, nused := 0 }
  (placeheader h heap_start heap_size 0, true)

/-- One past the last arena byte, `segment_start + segment_size`. -/
def blockEnd (h : Heap) : Nat := h.segment_start + h.segment_size

/-- The block-walk loop of `getfirstfree`: advance by decoded sizes until a
free header is found; bail out with `NULL` (0) once the cursor passes the
arena end.  `none` means the fuel ran out. -/
def getfirstfreeLoop : Nat → Heap → Nat → Option Nat
  | 0, _, _ => none
  | fuel + 1, h, t =>
    if isfree h t then some t
    else
      let t2 := t + getsize h t
      if t2 > blockEnd h then some 0
      else getfirstfreeLoop fuel h t2

/-- `getfirstfree` from explicit.c: scan from `segment_start`. -/
def getfirstfree (fuel : Nat) (h : Heap) : Option Nat :=
  getfirstfreeLoop fuel h h.segment_start

/-- The free-list search loop of `mymalloc`: follow `getnextptr` links until
a block of size at least `needed` appears, returning `NULL` (0) when the
next link is null. -/
def mallocLoop : Nat → Heap → Nat → Nat → Option Nat
  | 0, _, _, _ => none
  | fuel + 1, h, needed, t =>
    if getsize h t < needed then
      let t2 := getnextptr h t
      if t2 = 0 then some 0 else mallocLoop fuel h needed t2
    else some t

/-- The arena scan of `updatelinkedlist`: walk all blocks; at every free
block write its `prevptr`, back-patch the previous free block's `nextptr`,
and null its own `nextptr`. -/
def updLoop : Nat → Heap → Nat → Nat → Option Heap
  | 0, _, _, _ => none
  | fuel + 1, h, prev, t =>
    if t < blockEnd h then
      if isfree h t then
        let h1 := setprevptr h t prev
        let h2 := if getprevptr h1 t ≠ 0 then setnextptr h1 (getprevptr h1 t) t else h1
        let h3 := setnextptr h2 t 0
        updLoop fuel h3 t (t + getsize h3 t)
      else
        updLoop fuel h prev (t + getsize h t)
    else some h

/-- `updatelinkedlist` from explicit.c. -/
def updatelinkedlist (fuel : Nat) (h : Heap) : Option Heap :=
  updLoop fuel h 0 h.segment_start

/-- `mymalloc` from explicit.c: reject zero and oversized requests, find the
first free block, follow the free list to the first fit, split when at least
40 bytes would remain, bump `nused` by the bytes actually consumed, rebuild
the list, and return the payload address. -/
def mymalloc (fuel : Nat) (h : Heap) (requested_size : Nat) : Option (Heap × Nat) :=
  if requested_size = 0 then some (h, 0)
  else
    let needed := roundup requested_size ALIGNMENT
    if (needed + h.nused) % W > h.segment_size then some (h, 0)
    else if needed > MAX_REQUEST_SIZE then some (h, 0)
    else
      match getfirstfree fuel h with
      | none => none
      | some 0 => some (h, 0)
      | some ff =>
        match mallocLoop fuel h needed ff with
        | none => none
        | some 0 => some (h, 0)
        | some blk =>
          let free_block_size := getsize h blk
          let remaining_space := free_block_size - needed
          let h1 :=
            if 40 ≤ remaining_space then
              let ha := placeheader h (blk + needed) remaining_space 0
              let hb := placeheader ha blk needed 1
              { hb with nused := (hb.nused + needed) % W }
            else
              let hb := placeheader h blk free_block_size 1
              { hb with nused := (hb.nused + free_block_size) % W }
          (updatelinkedlist fuel h1).map (fun h2 => (h2, blk + HEADER_SIZE))

/-- The right-coalescing loop of `myfree`: while the current block's end is
strictly inside the arena and the immediately following block is free,
absorb the neighbor into this block's header and inherit its `nextptr`. -/
def freeLoop : Nat → Heap → Nat → Option Heap
  | 0, _, _ => none
  | fuel + 1, h, p =>
    if p + getsize h p < blockEnd h ∧ isfree h (p + getsize h p) then
      let nb := p + getsize h p
      let h1 := placeheader h p (getsize h p + getsize h nb) 0
      let h2 := setnextptr h1 p (getnextptr h1 nb)
      freeLoop fuel h2 p
    else some h

/-- `myfree` from explicit.c: no-op on `NULL`; otherwise clear the status
bit of the header at `ptr - HEADER_SIZE`, coalesce rightward, and rebuild
the linked list.  `nused` is not touched. -/
def myfree (fuel : Nat) (h : Heap) (ptr : Nat) : Option Heap :=
  if ptr = 0 then some h
  else
    let q := ptr - HEADER_SIZE
    let h1 := writeWord h q (word h q - word h q % 2)
    match freeLoop fuel h1 q with
    | none => none
    | some h2 => updatelinkedlist fuel h2

/-- 64-bit unsigned subtraction `a - b` (wrapping, as C `size_t` does). -/
def sub64 (a b : Nat) : Nat := (a % W + (W - b % W)) % W

/-- Reinterpret a 64-bit unsigned value as a `signed long`. -/
def slong (x : Nat) : Int :=
  if x % W < 2 ^ 63 then (x % W : Int) else (x % W : Int) - (W : Int)

/-- Byte-exact `memmove(dst, src, cnt)` on the word store: full words of the
prefix are copied outright and the trailing `cnt % 8` bytes are blended into
the low bytes of the final destination word.  Source words are read from the
pre-call memory, which is exactly `memmove`'s overlap-safe semantics. -/
def memmove (h : Heap) (dst src cnt : Nat) : Heap :=
  let full := cnt / 8
  let r := cnt % 8
  { h with mem := fun a =>
      if dst ≤ a ∧ a < dst + 8 * full ∧ (a - dst) % 8 = 0 then
        word h (src + (a - dst))
      else if r ≠ 0 ∧ a = dst + 8 * full then
        word h (src + 8 * full) % 256 ^ r + (word h a - word h a % 256 ^ r)
      else h.mem a }

/-- `myrealloc` from explicit.c.  Free on `new_size == 0`, `mymalloc` on a
null `old_ptr`.  Otherwise grow in place when the right neighbor is free and
`(signed long)(old_size + neighbor_size - new_size) > 32`, writing the tail
header at `old_ptr - HEADER_SIZE + needed` (the source computes the same
address as `next_block + (needed - old_size)`; its two in-place branches are
textually identical).  Else fall back to `mymalloc`, `memmove`
`min(old_size, new_size)` bytes (the destination is used unchecked even when
allocation failed and returned `NULL`), and free the old block. -/
def myrealloc (fuel : Nat) (h : Heap) (old_ptr new_size : Nat) : Option (Heap × Nat) :=
  if new_size = 0 ∧ old_ptr ≠ 0 then
    (myfree fuel h old_ptr).map (fun h2 => (h2, 0))
  else if old_ptr = 0 then
    mymalloc fuel h new_size
  else
    let needed := roundup new_size ALIGNMENT
    let old_size := getsize h (old_ptr - HEADER_SIZE)
    let next_block := old_ptr + old_size - HEADER_SIZE
    if isfree h next_block ∧
        slong (sub64 ((old_size + getsize h next_block) % W) new_size) > 32 then
      let h1 := placeheader h (old_ptr - HEADER_SIZE + needed)
        (sub64 ((getsize h next_block + old_size) % W) needed) 0
      let h2 := placeheader h1 (old_ptr - HEADER_SIZE) needed 1
      (updatelinkedlist fuel h2).map (fun h3 => (h3, old_ptr))
    else
      match mymalloc fuel h new_size with
      | none => none
      | some (h1, new_ptr) =>
        let cnt := if old_size > new_size then new_size else old_size
        let h2 := memmove h1 new_ptr old_ptr cnt
        (myfree fuel h2 old_ptr).map (fun h3 => (h3, new_ptr))

/-- The walk of `validate_heap`: the loop counter `i` is bumped by
`size + 1` in the body and once more by the `for` increment, and the walk
stops with `true` as soon as the tracker reaches or passes the arena end.
The fuel decreases once per iteration; since `i` grows by at least 2 per
iteration and the loop runs only while `i < nused`, fuel `nused + 1` is
never exhausted (the fuel-out value matches the loop's fall-through
result `true`). -/
def validateLoop : Nat → Heap → Nat → Nat → Bool
  | 0, _, _, _ => true
  | fuel + 1, h, tracker, i =>
    if i < h.nused then
      if tracker % 8 ≠ 0 then false
      else if tracker ≥ blockEnd h then true
      else
        let size := getsize h tracker
        if size % 8 ≠ 0 then false
        else validateLoop fuel h (tracker + size) (i + size + 2)
    else true

/-- `validate_heap` from explicit.c. -/
def validate_heap (h : Heap) : Bool :=
  if h.nused > h.segment_size then false
  else validateLoop (h.nused + 1) h h.segment_start 0

/-!
## Heap abstraction: block tilings and the free-list chain

`tilesB h a bl` says the addresses in `bl` are consecutive block headers
starting at `a` and ending exactly at the arena end, every block being at
least 24 bytes (one header plus the two link words) and a multiple of the
8-byte alignment.  `WFb` adds the global side conditions the data model
assumes: a nonzero, 8-aligned base and an arena that fits in the address
space.  `chainedB h prev fs` says the blocks in `fs`, in order, carry
exactly the doubly-linked chain whose head is preceded by `prev`.
-/

/-- Block addresses `l` tile the region from `a` to `e`: each entry is the
address of the block starting there, blocks are at least 24 bytes and
multiples of the 8-byte alignment, and the walk ends exactly at `e`. -/
def tilesTo (h : Heap) : Nat → Nat → List Nat → Bool
  | a, e, [] => a == e
  | a, e, b :: bs =>
    b == a && decide (24 ≤ getsize h a) && decide (getsize h a % 8 = 0) &&
      tilesTo h (a + getsize h a) e bs

/-- Block addresses `bl` tile the arena from `a` to its end. -/
def tilesB (h : Heap) (a : Nat) (bl : List Nat) : Bool :=
  tilesTo h a (blockEnd h) bl

/-- Well-formed heap with block list `bl`. -/
def WFb (h : Heap) (bl : List Nat) : Bool :=
  decide (0 < h.segment_start) && decide (h.segment_start % 8 = 0) &&
    decide (blockEnd h < 2 ^ 63) && tilesB h h.segment_start bl

/-- The free blocks of `bl`, in address order. -/
def freelist (h : Heap) (bl : List Nat) : List Nat :=
  bl.filter (fun b => isfree h b)

/-- The blocks of `fs` carry the doubly-linked free chain: each member's
`prevptr` names the member before it (`prev` ahead of the first) and each
member's `nextptr` names the member after it (0 after the last). -/
def chainedB (h : Heap) : Nat → List Nat → Bool
  | _, [] => true
  | prev, f :: fs =>
    decide (getprevptr h f = prev) &&
    decide (getnextptr h f = fs.headD 0) &&
    chainedB h f fs

/-- The free-list invariant of the data model: the chain threads exactly
the free blocks, in ascending address order, null-terminated at both ends. -/
def LinkedB (h : Heap) (bl : List Nat) : Bool :=
  chainedB h 0 (freelist h bl)

/-- Byte `j` of the region based at `base` (which must lie on the word
lattice): little-endian byte extraction from the stored words. -/
def byteAt (h : Heap) (base j : Nat) : Nat :=
  word h (base + 8 * (j / 8)) / 256 ^ (j % 8) % 256

/-- The writes `updatelinkedlist` performs, block by free block: set the
current block's `prevptr`, back-patch the previous free block's `nextptr`
(when there is one), null the current `nextptr`. -/
def processFrees (h : Heap) (prev : Nat) : List Nat → Heap
  | [] => h
  | f :: fs =>
    let h1 := setprevptr h f prev
    let h2 := if prev ≠ 0 then setnextptr h1 prev f else h1
    let h3 := setnextptr h2 f 0
    processFrees h3 f fs

/-!
## Concrete scenario heaps

Small arenas used to evaluate the operations on explicit inputs.  Memory
functions return 0 outside the listed cells.
-/

/-- An all-zero initial memory. -/
def zeroMem : Nat → Nat := fun _ => 0

/-- Arena of 64 bytes at address 8, freshly initialised. -/
def hInit64 : Heap := (myinit 8 64 zeroMem).1

/-- After `allocate(16)` on the 64-byte arena. -/
def hTrace1 : Heap := ((mymalloc 100 hInit64 16).getD (hInit64, 0)).1

/-- After releasing that allocation. -/
def hTrace2 : Heap := (myfree 100 hTrace1 16).getD hInit64

/-- After a subsequent `allocate(32)`. -/
def hTrace3 : Heap := ((mymalloc 100 hTrace2 32).getD (hInit64, 0)).1

/-- Arena of 56 bytes at address 8, freshly initialised. -/
def hInit56 : Heap := (myinit 8 56 zeroMem).1

/-- Arena at 1000 of 24 bytes holding one in-use block whose payload starts
with the word 77; the word just past the arena end is odd (in-use-looking). -/
def hOneBlock : Heap :=
  { mem := fun a => if a = 1000 then 25 else if a = 1008 then 77 else
      if a = 1024 then 1 else 0,
    segment_start := 1000, segment_size := 24, nused := 24 }

/-- Arena of 72 bytes at 8 holding three adjacent in-use 24-byte blocks
A at 8, B at 32, C at 56. -/
def hABC : Heap :=
  { mem := fun a => if a = 8 then 25 else if a = 32 then 25 else
      if a = 56 then 25 else 0,
    segment_start := 8, segment_size := 72, nused := 72 }

/-- `hABC` after releasing B (payload 40). -/
def hABC_freeB : Heap := (myfree 100 hABC 40).getD hABC

/-- `hABC_freeB` after releasing C (payload 64). -/
def hABC_freeBC : Heap := (myfree 100 hABC_freeB 64).getD hABC

/-- `hABC` after releasing C first. -/
def hABC_freeC : Heap := (myfree 100 hABC 64).getD hABC

/-- Arena of 56 bytes at 8: an in-use 24-byte block at 8 followed by a free
32-byte block at 32. -/
def hPair : Heap :=
  { mem := fun a => if a = 8 then 25 else if a = 32 then 32 else 0,
    segment_start := 8, segment_size := 56, nused := 24 }

/-- A 16-byte arena at 8 whose single header claims 24 bytes: the block
walk crosses the arena end. -/
def hOvershoot : Heap :=
  { mem := fun a => if a = 8 then 24 else 0,
    segment_start := 8, segment_size := 16, nused := 8 }

/-- A memory holding 6 in every cell: even (free-looking) nonzero garbage. -/
def garbageMem : Nat → Nat := fun _ => 6

/-- Arena of 32 bytes at 8 initialised on top of `garbageMem`. -/
def hGarbageInit : Heap := (myinit 8 32 garbageMem).1

/-- Arena of 104 bytes at 8, freshly initialised: one free block of 104. -/
def hInit104 : Heap := (myinit 8 104 zeroMem).1

/-- Arena of 72 bytes at 8: in-use 24-byte block A at 8, free 24-byte
blocks B at 32 and C at 56, with correct free-list links B ↔ C. -/
def hFreeTwo : Heap :=
  { mem := fun a => if a = 8 then 25 else if a = 32 then 24 else
      if a = 48 then 56 else if a = 56 then 24 else if a = 64 then 32 else 0,
    segment_start := 8, segment_size := 72, nused := 24 }


/-!
## Basic read/write lemmas
-/

theorem W_pos : 0 < W := by norm_num [W]

@[simp] theorem writeWord_start (h : Heap) (a v : Nat) :
    (writeWord h a v).segment_start = h.segment_start := rfl

@[simp] theorem writeWord_size (h : Heap) (a v : Nat) :
    (writeWord h a v).segment_size = h.segment_size := rfl

@[simp] theorem writeWord_nused (h : Heap) (a v : Nat) :
    (writeWord h a v).nused = h.nused := rfl

@[simp] theorem writeWord_end (h : Heap) (a v : Nat) :
    blockEnd (writeWord h a v) = blockEnd h := rfl

theorem word_writeWord_self (h : Heap) (a v : Nat) :
    word (writeWord h a v) a = v % W := by
  simp [word, writeWord, Nat.mod_mod_of_dvd]

theorem word_writeWord_ne (h : Heap) (a v x : Nat) (hx : x ≠ a) :
    word (writeWord h a v) x = word h x := by
  simp [word, writeWord, hx]

theorem word_lt (h : Heap) (a : Nat) : word h a < W :=
  Nat.mod_lt _ W_pos

theorem getsize_le_word (h : Heap) (a : Nat) : getsize h a ≤ word h a :=
  Nat.sub_le _ _

theorem getsize_lt (h : Heap) (a : Nat) : getsize h a < W :=
  Nat.lt_of_le_of_lt (getsize_le_word h a) (word_lt h a)

theorem isfree_iff (h : Heap) (a : Nat) : isfree h a = true ↔ word h a % 2 = 0 := by
  simp [isfree]

theorem getsize_of_isfree (h : Heap) (a : Nat) (hf : isfree h a = true) :
    getsize h a = word h a := by
  rw [isfree_iff] at hf
  simp [getsize, hf]

theorem getsize_of_not_isfree (h : Heap) (a : Nat) (hf : isfree h a = false) :
    getsize h a + 1 = word h a := by
  simp [isfree] at hf
  simp [getsize]
  omega

theorem lor_one_of_even {n : Nat} (h : n % 2 = 0) : n ||| 1 = n + 1 := by
  have h2 : n = 2 ^ 1 * (n / 2) := by omega
  rw [h2, ← Nat.mul_add_lt_is_or (by norm_num)]

theorem word_placeheader_self_free (h : Heap) (a sz : Nat) (hsz : sz < W) :
    word (placeheader h a sz 0) a = sz := by
  simp [placeheader, word_writeWord_self, Nat.mod_eq_of_lt hsz]

theorem word_placeheader_self_used (h : Heap) (a sz : Nat) (he : sz % 2 = 0)
    (hsz : sz + 1 < W) : word (placeheader h a sz 1) a = sz + 1 := by
  simp [placeheader, word_writeWord_self, lor_one_of_even he, Nat.mod_eq_of_lt hsz]

theorem word_placeheader_ne (h : Heap) (a sz st x : Nat) (hx : x ≠ a) :
    word (placeheader h a sz st) x = word h x :=
  word_writeWord_ne h a _ x hx

theorem getsize_placeheader_self_free (h : Heap) (a sz : Nat) (he : sz % 2 = 0)
    (hsz : sz < W) : getsize (placeheader h a sz 0) a = sz := by
  simp [getsize, word_placeheader_self_free h a sz hsz, he]

theorem isfree_placeheader_self_free (h : Heap) (a sz : Nat) (he : sz % 2 = 0)
    (hsz : sz < W) : isfree (placeheader h a sz 0) a = true := by
  simp [isfree, word_placeheader_self_free h a sz hsz, he]

theorem getsize_placeheader_self_used (h : Heap) (a sz : Nat) (he : sz % 2 = 0)
    (hsz : sz + 1 < W) : getsize (placeheader h a sz 1) a = sz := by
  have hw := word_placeheader_self_used h a sz he hsz
  simp [getsize, hw]
  omega

theorem isfree_placeheader_self_used (h : Heap) (a sz : Nat) (he : sz % 2 = 0)
    (hsz : sz + 1 < W) : isfree (placeheader h a sz 1) a = false := by
  have hw := word_placeheader_self_used h a sz he hsz
  simp [isfree, hw]
  omega

@[simp] theorem placeheader_start (h : Heap) (a sz st : Nat) :
    (placeheader h a sz st).segment_start = h.segment_start := rfl

@[simp] theorem placeheader_size (h : Heap) (a sz st : Nat) :
    (placeheader h a sz st).segment_size = h.segment_size := rfl

@[simp] theorem placeheader_nused (h : Heap) (a sz st : Nat) :
    (placeheader h a sz st).nused = h.nused := rfl

@[simp] theorem placeheader_end (h : Heap) (a sz st : Nat) :
    blockEnd (placeheader h a sz st) = blockEnd h := rfl

@[simp] theorem setprevptr_start (h : Heap) (a v : Nat) :
    (setprevptr h a v).segment_start = h.segment_start := rfl

@[simp] theorem setprevptr_size (h : Heap) (a v : Nat) :
    (setprevptr h a v).segment_size = h.segment_size := rfl

@[simp] theorem setprevptr_nused (h : Heap) (a v : Nat) :
    (setprevptr h a v).nused = h.nused := rfl

@[simp] theorem setnextptr_start (h : Heap) (a v : Nat) :
    (setnextptr h a v).segment_start = h.segment_start := rfl

@[simp] theorem setnextptr_size (h : Heap) (a v : Nat) :
    (setnextptr h a v).segment_size = h.segment_size := rfl

@[simp] theorem setnextptr_nused (h : Heap) (a v : Nat) :
    (setnextptr h a v).nused = h.nused := rfl

@[simp] theorem memmove_start (h : Heap) (d s c : Nat) :
    (memmove h d s c).segment_start = h.segment_start := rfl

@[simp] theorem memmove_size (h : Heap) (d s c : Nat) :
    (memmove h d s c).segment_size = h.segment_size := rfl

@[simp] theorem memmove_nused (h : Heap) (d s c : Nat) :
    (memmove h d s c).nused = h.nused := rfl

/-!
## Arithmetic facts about `roundup`
-/

theorem and_mask_eq {x : Nat} (h : x < 2 ^ 64) : x &&& (2 ^ 64 - 8) = x - x % 8 := by
  have h8 : x - x % 8 = 2 ^ 3 * (x / 8) := by omega
  have hm : (2 : Nat) ^ 64 - 8 = 2 ^ 3 * (2 ^ 61 - 1) := by norm_num
  have hsh : x / 8 = x >>> 3 := by simp [Nat.shiftRight_eq_div_pow]
  rw [h8, hm]
  apply Nat.eq_of_testBit_eq
  intro i
  rw [Nat.testBit_and, Nat.testBit_mul_pow_two, Nat.testBit_mul_pow_two, hsh,
    Nat.testBit_shiftRight, Nat.testBit_two_pow_sub_one]
  rcases Nat.lt_or_ge i 3 with h3 | h3
  · simp [Nat.not_le_of_lt h3]
  · have hi : 3 + (i - 3) = i := by omega
    rw [hi]
    rcases Nat.lt_or_ge i 64 with h64 | h64
    · simp [h3]
      intro _
      omega
    · have hx : x.testBit i = false :=
        Nat.testBit_lt_two_pow (Nat.lt_of_lt_of_le h (Nat.pow_le_pow_right (by norm_num) h64))
      simp [hx]

/-- Closed form of `roundup sz 8` away from the wrap-around fringe. -/
theorem roundup_eq (sz : Nat) (h0 : 0 < sz) (hW : sz + 15 < W) :
    roundup sz ALIGNMENT = if sz ≤ 16 then 24 else 8 * ((sz + 7) / 8) + 8 := by
  have hxW : sz + 8 - 1 < W := by omega
  have hmod : (sz + 8 - 1) % W = sz + 7 := by
    rw [Nat.mod_eq_of_lt hxW]
    omega
  have hmask : (sz + 7) &&& (W - 8) = (sz + 7) - (sz + 7) % 8 := by
    have := and_mask_eq (x := sz + 7) (by simpa [W] using hxW)
    simpa [W] using this
  have hr : (sz + 7) - (sz + 7) % 8 = 8 * ((sz + 7) / 8) := by omega
  rw [roundup]
  simp only [ALIGNMENT, HEADER_SIZE, hmod, hmask, hr]
  rcases le_or_lt sz 16 with hle | hgt
  · have h1 : 8 * ((sz + 7) / 8) < 24 := by omega
    have h2 : 0 < 8 * ((sz + 7) / 8) := by omega
    simp [h1, h2, hle]
  · have h1 : ¬ (8 * ((sz + 7) / 8) < 24) := by omega
    have h2 : 8 * ((sz + 7) / 8) + 8 < W := by omega
    simp only [if_neg (by omega : ¬ (0 < 8 * ((sz + 7) / 8) ∧ 8 * ((sz + 7) / 8) < 24))]
    rw [Nat.mod_eq_of_lt h2]
    simp [Nat.not_le_of_lt hgt]

theorem roundup_ge_24 (sz : Nat) (h0 : 0 < sz) (hW : sz + 15 < W) :
    24 ≤ roundup sz ALIGNMENT := by
  rw [roundup_eq sz h0 hW]
  split <;> omega

theorem roundup_mod_8 (sz : Nat) (h0 : 0 < sz) (hW : sz + 15 < W) :
    roundup sz ALIGNMENT % 8 = 0 := by
  rw [roundup_eq sz h0 hW]
  split <;> omega

theorem roundup_ge_add_8 (sz : Nat) (h0 : 0 < sz) (hW : sz + 15 < W) :
    sz + 8 ≤ roundup sz ALIGNMENT := by
  rw [roundup_eq sz h0 hW]
  split <;> omega

theorem roundup_le_add_23 (sz : Nat) (h0 : 0 < sz) (hW : sz + 15 < W) :
    roundup sz ALIGNMENT ≤ sz + 23 := by
  rw [roundup_eq sz h0 hW]
  split <;> omega

/-!
## Structure of tilings
-/

theorem tilesTo_nil (h : Heap) (a e : Nat) :
    tilesTo h a e [] = true ↔ a = e := by
  simp [tilesTo]

theorem tilesTo_cons (h : Heap) (a e b : Nat) (bs : List Nat) :
    tilesTo h a e (b :: bs) = true ↔
      b = a ∧ 24 ≤ getsize h a ∧ getsize h a % 8 = 0 ∧
        tilesTo h (a + getsize h a) e bs = true := by
  simp [tilesTo, and_assoc]

theorem tiles_nil (h : Heap) (a : Nat) :
    tilesB h a [] = true ↔ a = blockEnd h := by
  simp [tilesB, tilesTo]

theorem tiles_cons (h : Heap) (a b : Nat) (bs : List Nat) :
    tilesB h a (b :: bs) = true ↔
      b = a ∧ 24 ≤ getsize h a ∧ getsize h a % 8 = 0 ∧
        tilesB h (a + getsize h a) bs = true := by
  simp [tilesB, tilesTo, and_assoc]

/-- A tiling splits at any listed block address. -/
theorem tilesTo_append (h : Heap) (l1 l2 : List Nat) (a e b : Nat) :
    tilesTo h a e (l1 ++ b :: l2) = true ↔
      tilesTo h a b l1 = true ∧ tilesTo h b e (b :: l2) = true := by
  induction l1 generalizing a with
  | nil =>
    simp only [List.nil_append, tilesTo_nil]
    constructor
    · intro hx
      have hba : b = a := ((tilesTo_cons h a e b l2).mp hx).1
      subst hba
      exact ⟨rfl, hx⟩
    · intro ⟨hab, hx⟩
      subst hab
      exact hx
  | cons c cs ih =>
    simp only [List.cons_append, tilesTo_cons, ih]
    tauto

theorem tilesTo_bounds (h : Heap) (a e : Nat) (l : List Nat)
    (ht : tilesTo h a e l = true) :
    ∀ b ∈ l, a ≤ b ∧ b + getsize h b ≤ e ∧
      24 ≤ getsize h b ∧ getsize h b % 8 = 0 := by
  induction l generalizing a with
  | nil => simp
  | cons c cs ih =>
    rw [tilesTo_cons] at ht
    obtain ⟨hc, h24, h8, hrest⟩ := ht
    subst hc
    have hbnd := ih (c + getsize h c) hrest
    have hce : c + getsize h c ≤ e := by
      rcases cs with _ | ⟨d, ds⟩
      · rw [tilesTo_nil] at hrest
        omega
      · have h1 := (hbnd d (by simp)).1
        have h2 := (hbnd d (by simp)).2.1
        omega
    intro b hb
    rcases List.mem_cons.mp hb with hb1 | hb1
    · subst hb1
      exact ⟨Nat.le_refl _, hce, h24, h8⟩
    · have hb2 := hbnd b hb1
      exact ⟨by omega, hb2.2.1, hb2.2.2.1, hb2.2.2.2⟩

/-- Tilings only inspect block sizes, so they transfer between heaps that
agree on the decoded size of every listed block. -/
theorem tilesTo_congr (h1 h2 : Heap) (a e : Nat) (bl : List Nat)
    (hmem : ∀ b ∈ bl, getsize h2 b = getsize h1 b) :
    tilesTo h2 a e bl = tilesTo h1 a e bl := by
  induction bl generalizing a with
  | nil => simp [tilesTo]
  | cons b bs ih =>
    have hg : getsize h2 b = getsize h1 b := hmem b (by simp)
    rcases Decidable.em (b = a) with hb | hb
    · subst hb
      simp only [tilesTo, hg]
      rw [ih (b + getsize h1 b) (fun c hc => hmem c (by simp [hc]))]
    · have hba : (b == a) = false := by simp [hb]
      simp only [tilesTo, hba, Bool.false_and]

theorem tiles_congr (h1 h2 : Heap) (a : Nat) (bl : List Nat)
    (hend : blockEnd h2 = blockEnd h1)
    (hmem : ∀ b ∈ bl, word h2 b = word h1 b) :
    tilesB h2 a bl = tilesB h1 a bl := by
  rw [tilesB, tilesB, hend]
  exact tilesTo_congr h1 h2 a (blockEnd h1) bl
    (fun b hb => by simp [getsize, hmem b hb])

theorem tiles_bounds (h : Heap) (a : Nat) (bl : List Nat)
    (ht : tilesB h a bl = true) :
    ∀ b ∈ bl, a ≤ b ∧ b + getsize h b ≤ blockEnd h ∧
      24 ≤ getsize h b ∧ getsize h b % 8 = 0 := by
  induction bl generalizing a with
  | nil => simp
  | cons c cs ih =>
    rw [tiles_cons] at ht
    obtain ⟨hc, h24, h8, hrest⟩ := ht
    subst hc
    have hbnd := ih (c + getsize h c) hrest
    have hce : c + getsize h c ≤ blockEnd h := by
      rcases cs with _ | ⟨d, ds⟩
      · rw [tiles_nil] at hrest
        omega
      · have h1 := (hbnd d (by simp)).1
        have h2 := (hbnd d (by simp)).2.1
        omega
    intro b hb
    rcases List.mem_cons.mp hb with hb1 | hb1
    · subst hb1
      exact ⟨Nat.le_refl _, hce, h24, h8⟩
    · have hb2 := hbnd b hb1
      exact ⟨by omega, hb2.2.1, hb2.2.2.1, hb2.2.2.2⟩

theorem tiles_start_le_end (h : Heap) (a : Nat) (bl : List Nat)
    (ht : tilesB h a bl = true) : a ≤ blockEnd h := by
  cases bl with
  | nil => rw [tiles_nil] at ht; omega
  | cons b bs =>
    rw [tiles_cons] at ht
    obtain ⟨hb, h24, _, hrest⟩ := ht
    have := tiles_start_le_end h (a + getsize h a) bs hrest
    omega

theorem tiles_pairwise (h : Heap) (a : Nat) (bl : List Nat)
    (ht : tilesB h a bl = true) :
    bl.Pairwise (fun b c => b + getsize h b ≤ c) := by
  induction bl generalizing a with
  | nil => simp
  | cons c cs ih =>
    rw [tiles_cons] at ht
    obtain ⟨hc, _, _, hrest⟩ := ht
    subst hc
    refine List.Pairwise.cons ?_ (ih _ hrest)
    intro b hb
    exact (tiles_bounds h _ cs hrest b hb).1

theorem tiles_disjoint (h : Heap) (a : Nat) (bl : List Nat)
    (ht : tilesB h a bl = true) :
    ∀ b ∈ bl, ∀ c ∈ bl, b ≠ c → b + getsize h b ≤ c ∨ c + getsize h c ≤ b := by
  induction bl generalizing a with
  | nil => simp
  | cons x xs ih =>
    rw [tiles_cons] at ht
    obtain ⟨hx, h24, h8, hrest⟩ := ht
    subst hx
    have hbnd := tiles_bounds h _ xs hrest
    intro b hb c hc hne
    rcases List.mem_cons.mp hb with hb1 | hb1
    · rcases List.mem_cons.mp hc with hc1 | hc1
      · exact absurd (hb1.trans hc1.symm) hne
      · subst hb1
        exact Or.inl (hbnd c hc1).1
    · rcases List.mem_cons.mp hc with hc1 | hc1
      · subst hc1
        exact Or.inr (hbnd b hb1).1
      · exact ih _ hrest b hb1 c hc1 hne

/-- A cell strictly inside one block differs from every block address. -/
theorem tiles_interior_ne (h : Heap) (a : Nat) (bl : List Nat)
    (ht : tilesB h a bl = true) {blk x : Nat} (hblk : blk ∈ bl)
    (hx1 : blk < x) (hx2 : x < blk + getsize h blk) :
    ∀ b ∈ bl, x ≠ b := by
  intro b hb
  rcases Decidable.em (b = blk) with hbe | hbe
  · subst hbe
    omega
  · rcases tiles_disjoint h a bl ht b hb blk hblk hbe with hd | hd
    · omega
    · omega


/-!
## The list maintainer as a pure function of the free blocks
-/

theorem setprevptr_eq (h : Heap) (a v : Nat) :
    setprevptr h a v = writeWord h (a + 8) v := rfl

theorem setnextptr_eq (h : Heap) (a v : Nat) :
    setnextptr h a v = writeWord h (a + 16) v := by
  have he : a + HEADER_SIZE + 8 = a + 16 := by
    simp [HEADER_SIZE]
  rw [setnextptr, he]

theorem getprevptr_eq (h : Heap) (a : Nat) : getprevptr h a = word h (a + 8) := rfl

theorem getnextptr_eq (h : Heap) (a : Nat) : getnextptr h a = word h (a + 16) := by
  have he : a + HEADER_SIZE + 8 = a + 16 := by
    simp [HEADER_SIZE]
  rw [getnextptr, he]

theorem freelist_congr (h1 h2 : Heap) (bl : List Nat)
    (hmem : ∀ b ∈ bl, word h2 b = word h1 b) :
    freelist h2 bl = freelist h1 bl := by
  unfold freelist
  refine List.filter_congr ?_
  intro b hb
  simp [isfree, hmem b hb]

theorem chained_cons (h : Heap) (p f : Nat) (fs : List Nat) :
    chainedB h p (f :: fs) = true ↔
      getprevptr h f = p ∧ getnextptr h f = fs.headD 0 ∧ chainedB h f fs = true := by
  simp [chainedB, and_assoc]

theorem processFrees_start (h : Heap) (prev : Nat) (fs : List Nat) :
    (processFrees h prev fs).segment_start = h.segment_start := by
  induction fs generalizing h prev with
  | nil => rfl
  | cons f fs ih =>
    rw [processFrees, ih]
    by_cases hp : prev ≠ 0 <;> simp [hp]

theorem processFrees_size (h : Heap) (prev : Nat) (fs : List Nat) :
    (processFrees h prev fs).segment_size = h.segment_size := by
  induction fs generalizing h prev with
  | nil => rfl
  | cons f fs ih =>
    rw [processFrees, ih]
    by_cases hp : prev ≠ 0 <;> simp [hp]

theorem processFrees_nused (h : Heap) (prev : Nat) (fs : List Nat) :
    (processFrees h prev fs).nused = h.nused := by
  induction fs generalizing h prev with
  | nil => rfl
  | cons f fs ih =>
    rw [processFrees, ih]
    by_cases hp : prev ≠ 0 <;> simp [hp]

theorem processFrees_end (h : Heap) (prev : Nat) (fs : List Nat) :
    blockEnd (processFrees h prev fs) = blockEnd h := by
  rw [blockEnd, blockEnd, processFrees_start, processFrees_size]

/-- Cells other than the link words of the processed free blocks (and the
incoming previous block's next link) are untouched. -/
theorem processFrees_mem_eq (h : Heap) (prev : Nat) (fs : List Nat) (a : Nat)
    (hno : ∀ f ∈ fs, a ≠ f + 8 ∧ a ≠ f + 16)
    (hprev : prev ≠ 0 → fs ≠ [] → a ≠ prev + 16) :
    (processFrees h prev fs).mem a = h.mem a := by
  induction fs generalizing h prev with
  | nil => rfl
  | cons f fs ih =>
    rw [processFrees]
    have hf8 := (hno f (by simp)).1
    have hf16 := (hno f (by simp)).2
    rw [ih _ f (fun g hg => hno g (by simp [hg])) (fun _ _ => hf16)]
    by_cases hp : prev = 0
    · simp [setnextptr_eq, setprevptr_eq, writeWord, hf16, hf8, hp]
    · have hp16 := hprev hp (by simp)
      simp [setnextptr_eq, setprevptr_eq, writeWord, hf16, hf8, hp, hp16]

theorem processFrees_word_eq (h : Heap) (prev : Nat) (fs : List Nat) (a : Nat)
    (hno : ∀ f ∈ fs, a ≠ f + 8 ∧ a ≠ f + 16)
    (hprev : prev ≠ 0 → fs ≠ [] → a ≠ prev + 16) :
    word (processFrees h prev fs) a = word h a := by
  rw [word, word, processFrees_mem_eq h prev fs a hno hprev]

/-- After processing, the free blocks carry exactly the doubly-linked chain. -/
theorem processFrees_chained (h : Heap) (prev : Nat) (fs : List Nat)
    (hsep : fs.Pairwise (fun x y => x + 24 ≤ y))
    (hpos : ∀ f ∈ fs, 0 < f ∧ f < 2 ^ 63)
    (hprev0 : prev < 2 ^ 63)
    (hprevsep : ∀ f ∈ fs, prev = 0 ∨ prev + 24 ≤ f) :
    chainedB (processFrees h prev fs) prev fs = true ∧
      (prev ≠ 0 → fs ≠ [] → word (processFrees h prev fs) (prev + 16) = fs.headD 0) := by
  induction fs generalizing h prev with
  | nil =>
    refine ⟨rfl, ?_⟩
    intro _ hne
    exact absurd rfl hne
  | cons f fs ih =>
    have hposf := hpos f (by simp)
    have hsepf : ∀ g ∈ fs, f + 24 ≤ g := fun g hg => List.rel_of_pairwise_cons hsep hg
    have hps := hprevsep f (by simp)
    rw [processFrees]
    set h1 := setprevptr h f prev with hh1
    set h2 := (if prev ≠ 0 then setnextptr h1 prev f else h1) with hh2
    set h3 := setnextptr h2 f 0 with hh3
    have ihres := ih h3 f (List.Pairwise.of_cons hsep)
      (fun g hg => hpos g (by simp [hg])) hposf.2
      (fun g hg => Or.inr (hsepf g hg))
    have hw8_3 : word h3 (f + 8) = prev := by
      rw [hh3, setnextptr_eq, word_writeWord_ne _ _ _ _ (by omega)]
      have hw2 : word h2 (f + 8) = prev := by
        rw [hh2]
        by_cases hp : prev = 0
        · simp only [hp]
          simp only [if_neg (by simp : ¬ (0 : Nat) ≠ 0)]
          rw [hh1, setprevptr_eq, word_writeWord_self]
          simp [hp, Nat.mod_eq_of_lt (show (0:Nat) < W by norm_num [W])]
        · have hpf : prev + 24 ≤ f := by
            rcases hps with hc | hc
            · exact absurd hc hp
            · exact hc
          simp only [if_pos hp]
          rw [setnextptr_eq, word_writeWord_ne _ _ _ _ (by omega)]
          rw [hh1, setprevptr_eq, word_writeWord_self]
          exact Nat.mod_eq_of_lt (by
            have : (2 : Nat) ^ 63 < W := by norm_num [W]
            omega)
      exact hw2
    have hrecmem : ∀ a, (∀ g ∈ fs, a ≠ g + 8 ∧ a ≠ g + 16) → a ≠ f + 16 →
        word (processFrees h3 f fs) a = word h3 a := by
      intro a hga hf16
      exact processFrees_word_eq h3 f fs a hga (fun _ _ => hf16)
    have hw8 : word (processFrees h3 f fs) (f + 8) = prev := by
      rw [hrecmem (f + 8) (fun g hg => by
        have := hsepf g hg
        constructor <;> omega) (by omega)]
      exact hw8_3
    have hw16 : word (processFrees h3 f fs) (f + 16) = fs.headD 0 := by
      rcases fs with _ | ⟨g, gs⟩
      · show word h3 (f + 16) = 0
        rw [hh3, setnextptr_eq, word_writeWord_self]
        simp [Nat.mod_eq_of_lt (show (0:Nat) < W by norm_num [W])]
      · exact ihres.2 (by omega) (by simp)
    refine ⟨?_, ?_⟩
    · rw [chained_cons]
      refine ⟨?_, ?_, ihres.1⟩
      · rw [getprevptr_eq]
        exact hw8
      · rw [getnextptr_eq]
        exact hw16
    · intro hp _
      have hpf : prev + 24 ≤ f := by
        rcases hps with hc | hc
        · exact absurd hc hp
        · exact hc
      rw [hrecmem (prev + 16) (fun g hg => by
        have := hsepf g hg
        constructor <;> omega) (by omega)]
      rw [hh3, setnextptr_eq, word_writeWord_ne _ _ _ _ (by omega)]
      rw [hh2]
      simp only [if_pos hp]
      rw [setnextptr_eq, word_writeWord_self]
      exact Nat.mod_eq_of_lt (by
        have : (2 : Nat) ^ 63 < W := by norm_num [W]
        omega)

theorem updLoop_step_end (fuel : Nat) (h : Heap) (prev t : Nat)
    (hge : ¬ t < blockEnd h) :
    updLoop (fuel + 1) h prev t = some h := by
  rw [updLoop]
  simp [hge]

theorem updLoop_step_used (fuel : Nat) (h : Heap) (prev t : Nat)
    (hlt : t < blockEnd h) (hfree : isfree h t = false) :
    updLoop (fuel + 1) h prev t = updLoop fuel h prev (t + getsize h t) := by
  rw [updLoop]
  simp [hlt, hfree]

theorem updLoop_step_free (fuel : Nat) (h : Heap) (prev t : Nat)
    (hlt : t < blockEnd h) (hfree : isfree h t = true) (hp : prev < W) :
    updLoop (fuel + 1) h prev t =
      (let h1 := setprevptr h t prev
       let h2 := if prev ≠ 0 then setnextptr h1 prev t else h1
       let h3 := setnextptr h2 t 0
       updLoop fuel h3 t (t + getsize h3 t)) := by
  have hgp : getprevptr (setprevptr h t prev) t = prev := by
    rw [getprevptr_eq, setprevptr_eq, word_writeWord_self, Nat.mod_eq_of_lt hp]
  rw [updLoop]
  simp only [if_pos hlt, hfree, if_true, hgp]

/-- `updLoop` over a tiling is exactly `processFrees` on the free blocks. -/
theorem updLoop_eq (rest : List Nat) (h : Heap) (prev t fuel : Nat)
    (ht : tilesB h t rest = true)
    (hfuel : rest.length < fuel)
    (hprev : prev < 2 ^ 63)
    (hsep : prev = 0 ∨ prev + 24 ≤ t)
    (hend : blockEnd h < 2 ^ 63) :
    updLoop fuel h prev t = some (processFrees h prev (freelist h rest)) := by
  induction rest generalizing h prev t fuel with
  | nil =>
    rw [tiles_nil] at ht
    rcases fuel with _ | fuel
    · omega
    · rw [updLoop_step_end fuel h prev t (by omega)]
      rfl
  | cons b bs ih =>
    rw [tiles_cons] at ht
    obtain ⟨hb, h24, h8, hrest⟩ := ht
    subst hb
    rcases fuel with _ | fuel
    · omega
    have hfuel2 : bs.length < fuel := by
      simp at hfuel
      omega
    have hbe : b + getsize h b ≤ blockEnd h := tiles_start_le_end h _ bs hrest
    have hlt : b < blockEnd h := by omega
    have hbW : b < 2 ^ 63 := by omega
    have hWb : (2 : Nat) ^ 63 < W := by norm_num [W]
    rcases Bool.eq_false_or_eq_true (isfree h b) with hfree | hfree
    case cons.intro.intro.intro.succ.inr =>
      rw [updLoop_step_used fuel h prev b hlt hfree]
      have hfl : freelist h (b :: bs) = freelist h bs := by
        simp [freelist, hfree]
      rw [hfl]
      exact ih h prev (b + getsize h b) fuel hrest hfuel2 hprev (by omega) hend
    case cons.intro.intro.intro.succ.inl =>
      rw [updLoop_step_free fuel h prev b hlt hfree (by omega)]
      set h1 := setprevptr h b prev with hh1
      set h2 := (if prev ≠ 0 then setnextptr h1 prev b else h1) with hh2
      set h3 := setnextptr h2 b 0 with hh3
      have h3mem : ∀ x, x ≠ b + 8 → x ≠ b + 16 → (prev ≠ 0 → x ≠ prev + 16) →
          word h3 x = word h x := by
        intro x hx8 hx16 hxp
        rw [hh3, setnextptr_eq, word_writeWord_ne _ _ _ _ hx16, hh2]
        by_cases hp : prev = 0
        · simp only [hp]
          simp only [if_neg (by simp : ¬ (0 : Nat) ≠ 0)]
          rw [hh1, setprevptr_eq, word_writeWord_ne _ _ _ _ hx8]
        · simp only [if_pos hp]
          rw [setnextptr_eq, word_writeWord_ne _ _ _ _ (hxp hp), hh1,
            setprevptr_eq, word_writeWord_ne _ _ _ _ hx8]
      have hprevlt : prev = 0 ∨ prev + 24 ≤ b := hsep
      have h3word : word h3 b = word h b := by
        refine h3mem b (by omega) (by omega) ?_
        intro hp
        rcases hprevlt with hc | hc
        · exact absurd hc hp
        · omega
      have h3size : getsize h3 b = getsize h b := by
        simp [getsize, h3word]
      have h3rest : ∀ c ∈ bs, word h3 c = word h c := by
        intro c hc
        have hcb := (tiles_bounds h _ bs hrest c hc).1
        refine h3mem c (by omega) (by omega) ?_
        intro hp
        rcases hprevlt with hd | hd
        · exact absurd hd hp
        · omega
      have h3end : blockEnd h3 = blockEnd h := by
        rw [hh3, hh2, hh1]
        by_cases hp : prev ≠ 0 <;> simp [hp, setnextptr_eq, setprevptr_eq]
      have h3tiles : tilesB h3 (b + getsize h b) bs = true := by
        rw [tiles_congr h h3 (b + getsize h b) bs h3end h3rest]
        exact hrest
      have hfl3 : freelist h3 bs = freelist h bs := freelist_congr h h3 bs h3rest
      have ihres := ih h3 b (b + getsize h3 b) fuel
        (by rw [h3size]; exact h3tiles) hfuel2 hbW
        (Or.inr (by omega)) (by rw [h3end]; exact hend)
      rw [hfl3] at ihres
      have hflcons : freelist h (b :: bs) = b :: freelist h bs := by
        simp [freelist, hfree]
      rw [hflcons]
      exact ihres

theorem WFb_unpack (h : Heap) (bl : List Nat) (hwf : WFb h bl = true) :
    0 < h.segment_start ∧ h.segment_start % 8 = 0 ∧ blockEnd h < 2 ^ 63 ∧
      tilesB h h.segment_start bl = true := by
  simp only [WFb, Bool.and_eq_true, decide_eq_true_eq] at hwf
  exact ⟨hwf.1.1.1, hwf.1.1.2, hwf.1.2, hwf.2⟩

theorem freelist_mem (h : Heap) (bl : List Nat) (f : Nat) (hf : f ∈ freelist h bl) :
    f ∈ bl ∧ isfree h f = true := by
  have hm := List.mem_filter.mp hf
  exact ⟨hm.1, by simpa using hm.2⟩

theorem freelist_sep (h : Heap) (bl : List Nat)
    (ht : tilesB h h.segment_start bl = true) :
    (freelist h bl).Pairwise (fun x y => x + 24 ≤ y) := by
  have hsub : List.Sublist (freelist h bl) bl := List.filter_sublist bl
  have hp := (tiles_pairwise h _ bl ht).sublist hsub
  refine hp.imp_of_mem ?_
  intro a b ha _ hab
  have h24 := (tiles_bounds h _ bl ht a (freelist_mem h bl a ha).1).2.2.1
  omega

theorem freelist_pos (h : Heap) (bl : List Nat) (hwf : WFb h bl = true) :
    ∀ f ∈ freelist h bl, 0 < f ∧ f < 2 ^ 63 := by
  obtain ⟨hs, _, he, ht⟩ := WFb_unpack h bl hwf
  intro f hf
  have hb := tiles_bounds h _ bl ht f (freelist_mem h bl f hf).1
  omega

/-- No block address coincides with a link cell of any free block. -/
theorem block_ne_linkcell (h : Heap) (bl : List Nat)
    (ht : tilesB h h.segment_start bl = true) (b : Nat) (hb : b ∈ bl) :
    ∀ f ∈ freelist h bl, b ≠ f + 8 ∧ b ≠ f + 16 := by
  intro f hf
  have hfbl := (freelist_mem h bl f hf).1
  have h24 := (tiles_bounds h _ bl ht f hfbl).2.2.1
  constructor
  · intro heq
    exact (tiles_interior_ne h _ bl ht hfbl (by omega) (by omega : f + 8 < f + getsize h f)
      b hb) heq.symm
  · intro heq
    exact (tiles_interior_ne h _ bl ht hfbl (by omega) (by omega : f + 16 < f + getsize h f)
      b hb) heq.symm

theorem updatelinkedlist_eq (h : Heap) (bl : List Nat) (fuel : Nat)
    (hwf : WFb h bl = true) (hfuel : bl.length < fuel) :
    updatelinkedlist fuel h = some (processFrees h 0 (freelist h bl)) := by
  obtain ⟨hs, ha, he, ht⟩ := WFb_unpack h bl hwf
  exact updLoop_eq bl h 0 h.segment_start fuel ht hfuel (by norm_num) (Or.inl rfl) he

theorem updll_word_blocks (h : Heap) (bl : List Nat)
    (ht : tilesB h h.segment_start bl = true) :
    ∀ b ∈ bl, word (processFrees h 0 (freelist h bl)) b = word h b := by
  intro b hb
  refine processFrees_word_eq h 0 (freelist h bl) b (block_ne_linkcell h bl ht b hb) ?_
  intro h0
  exact absurd rfl h0

theorem updll_tiles (h : Heap) (bl : List Nat)
    (ht : tilesB h h.segment_start bl = true) :
    tilesB (processFrees h 0 (freelist h bl)) h.segment_start bl = true := by
  rw [tiles_congr h (processFrees h 0 (freelist h bl)) h.segment_start bl
    (processFrees_end h 0 (freelist h bl)) (updll_word_blocks h bl ht)]
  exact ht

theorem updll_freelist (h : Heap) (bl : List Nat)
    (ht : tilesB h h.segment_start bl = true) :
    freelist (processFrees h 0 (freelist h bl)) bl = freelist h bl :=
  freelist_congr h _ bl (updll_word_blocks h bl ht)

theorem updll_linked (h : Heap) (bl : List Nat) (hwf : WFb h bl = true) :
    LinkedB (processFrees h 0 (freelist h bl)) bl = true := by
  obtain ⟨hs, ha, he, ht⟩ := WFb_unpack h bl hwf
  rw [LinkedB, updll_freelist h bl ht]
  exact (processFrees_chained h 0 (freelist h bl) (freelist_sep h bl ht)
    (freelist_pos h bl hwf) (by norm_num) (fun f _ => Or.inl rfl)).1

theorem updll_wf (h : Heap) (bl : List Nat) (hwf : WFb h bl = true) :
    WFb (processFrees h 0 (freelist h bl)) bl = true := by
  obtain ⟨hs, ha, he, ht⟩ := WFb_unpack h bl hwf
  have h1 := updll_tiles h bl ht
  have hend := processFrees_end h 0 (freelist h bl)
  simp only [WFb, Bool.and_eq_true, decide_eq_true_eq, processFrees_start]
  exact ⟨⟨⟨hs, ha⟩, by rw [hend]; exact he⟩, h1⟩

/-!
## The allocation search: first free block, then first fit along the chain
-/

theorem getfirstfreeLoop_eq (rest : List Nat) (h : Heap) (t fuel : Nat)
    (ht : tilesB h t rest = true) (hfuel : rest.length < fuel)
    (hne : freelist h rest ≠ []) :
    getfirstfreeLoop fuel h t = some ((freelist h rest).headD 0) := by
  induction rest generalizing t fuel with
  | nil => simp [freelist] at hne
  | cons b bs ih =>
    rw [tiles_cons] at ht
    obtain ⟨hb, h24, h8, hrest⟩ := ht
    subst hb
    rcases fuel with _ | fuel
    · omega
    have hfuel2 : bs.length < fuel := by
      simp at hfuel
      omega
    rw [getfirstfreeLoop]
    rcases Bool.eq_false_or_eq_true (isfree h b) with hfree | hfree
    · have hfl : freelist h (b :: bs) = b :: freelist h bs := by
        simp [freelist, hfree]
      rw [hfl]
      simp [hfree]
    · have hbe : b + getsize h b ≤ blockEnd h := tiles_start_le_end h _ bs hrest
      have hfl : freelist h (b :: bs) = freelist h bs := by
        simp [freelist, hfree]
      rw [hfl] at hne ⊢
      simp only [hfree, Bool.false_eq_true, if_false]
      rw [if_neg (by omega : ¬ b + getsize h b > blockEnd h)]
      exact ih (b + getsize h b) fuel hrest hfuel2 hne

theorem mallocLoop_eq (fs : List Nat) : ∀ (h : Heap) (needed prev f fuel : Nat),
    chainedB h prev (f :: fs) = true → fs.length + 1 < fuel →
    (∀ g ∈ f :: fs, 0 < g) →
    mallocLoop fuel h needed f =
      some (((f :: fs).find? (fun g => decide (needed ≤ getsize h g))).getD 0) := by
  induction fs with
  | nil =>
    intro h needed prev f fuel hch hfuel hpos
    rcases fuel with _ | fuel
    · omega
    rw [chained_cons] at hch
    rw [mallocLoop]
    rcases Nat.lt_or_ge (getsize h f) needed with hlt | hge
    · have hdec : ¬ (fun g => decide (needed ≤ getsize h g)) f = true := by
        simp
        omega
      rw [@List.find?_cons_of_neg _ (fun g => decide (needed ≤ getsize h g)) f [] hdec]
      have hnext : getnextptr h f = 0 := hch.2.1
      simp [if_pos hlt, hnext]
    · have hdec : (fun g => decide (needed ≤ getsize h g)) f = true := by
        simp
        omega
      rw [@List.find?_cons_of_pos _ (fun g => decide (needed ≤ getsize h g)) f [] hdec]
      simp [if_neg (Nat.not_lt_of_ge hge)]
  | cons g gs ih =>
    intro h needed prev f fuel hch hfuel hpos
    rcases fuel with _ | fuel
    · omega
    rw [chained_cons] at hch
    rw [mallocLoop]
    rcases Nat.lt_or_ge (getsize h f) needed with hlt | hge
    · have hdec : ¬ (fun x => decide (needed ≤ getsize h x)) f = true := by
        simp
        omega
      rw [@List.find?_cons_of_neg _ (fun x => decide (needed ≤ getsize h x)) f (g :: gs) hdec]
      have hnext : getnextptr h f = g := hch.2.1
      have hg0 : 0 < g := hpos g (by simp)
      simp only [if_pos hlt, hnext, if_neg (by omega : ¬ g = 0)]
      exact ih h needed f g fuel hch.2.2 (by simp at hfuel ⊢; omega)
        (fun x hx => hpos x (by simp at hx ⊢; tauto))
    · have hdec : (fun x => decide (needed ≤ getsize h x)) f = true := by
        simp
        omega
      rw [@List.find?_cons_of_pos _ (fun x => decide (needed ≤ getsize h x)) f (g :: gs) hdec]
      simp [if_neg (Nat.not_lt_of_ge hge)]

/-!
## Header rewrites and tilings
-/

/-- Rewriting headers without changing any decoded size preserves a tiling. -/
theorem tiles_update_sizes (h h' : Heap) (a : Nat) (bl : List Nat)
    (ht : tilesB h a bl = true)
    (hsize : ∀ b ∈ bl, getsize h' b = getsize h b)
    (hend : blockEnd h' = blockEnd h) :
    tilesB h' a bl = true := by
  rw [tilesB, hend, tilesTo_congr h h' a (blockEnd h) bl hsize]
  exact ht

/-- Splitting the free block `blk` into an in-use front of `needed` bytes
and a free remainder re-tiles the arena with one extra block. -/
theorem tiles_update_split (h h' : Heap) (a : Nat) (pre post : List Nat)
    (blk needed rem : Nat)
    (ht : tilesB h a (pre ++ blk :: post) = true)
    (h24 : 24 ≤ needed) (h8 : needed % 8 = 0)
    (hremEq : rem = getsize h blk - needed)
    (hrem : needed + 40 ≤ getsize h blk)
    (_hW : blockEnd h < 2 ^ 63)
    (hh' : h' = placeheader (placeheader h (blk + needed) rem 0) blk needed 1) :
    tilesB h' a (pre ++ blk :: (blk + needed) :: post) = true ∧
      getsize h' blk = needed ∧ isfree h' blk = false ∧
      getsize h' (blk + needed) = rem ∧ isfree h' (blk + needed) = true ∧
      (∀ b ∈ pre ++ blk :: post, b ≠ blk → word h' b = word h b) ∧
      (∀ x, x ≠ blk → x ≠ blk + needed → h'.mem x = h.mem x) := by
  have hblkmem : blk ∈ pre ++ blk :: post := by simp
  have hbnd := tiles_bounds h a _ ht blk hblkmem
  have hgsW : getsize h blk < W := getsize_lt h blk
  have hneedW : needed + 1 < W := by
    have : (2 : Nat) ^ 63 < W := by norm_num [W]
    omega
  have hwblk : word h' blk = needed + 1 := by
    rw [hh', word_placeheader_self_used _ _ _ (by omega) hneedW]
  have hwrem : word h' (blk + needed) = rem := by
    rw [hh', word_placeheader_ne _ _ _ _ _ (by omega),
      word_placeheader_self_free _ _ _ (by omega)]
  have hgblk : getsize h' blk = needed := by
    simp [getsize, hwblk]
    omega
  have hfblk : isfree h' blk = false := by
    simp [isfree, hwblk]
    omega
  have hgrem : getsize h' (blk + needed) = rem := by
    have hre : rem % 2 = 0 := by omega
    simp [getsize, hwrem, hre]
  have hfrem : isfree h' (blk + needed) = true := by
    have hre : rem % 2 = 0 := by omega
    simp [isfree, hwrem, hre]
  have hother : ∀ b ∈ pre ++ blk :: post, b ≠ blk → word h' b = word h b := by
    intro b hbm hbne
    have hne2 : b ≠ blk + needed :=
      fun heq => (tiles_interior_ne h a _ ht hblkmem (by omega)
        (by omega : blk + needed < blk + getsize h blk) b hbm) heq.symm
    rw [hh', word_placeheader_ne _ _ _ _ _ hbne, word_placeheader_ne _ _ _ _ _ hne2]
  have hmemx : ∀ x, x ≠ blk → x ≠ blk + needed → h'.mem x = h.mem x := by
    intro x hx1 hx2
    rw [hh']
    simp [placeheader, writeWord, hx1, hx2]
  rw [tilesB, tilesTo_append] at ht
  obtain ⟨htpre, htmid⟩ := ht
  rw [tilesTo_cons] at htmid
  obtain ⟨-, hmid24, hmid8, htpost⟩ := htmid
  have hendEq : blockEnd h' = blockEnd h := by rw [hh']; simp
  refine ⟨?_, hgblk, hfblk, hgrem, hfrem, hother, hmemx⟩
  rw [tilesB, hendEq, tilesTo_append]
  constructor
  · rw [tilesTo_congr h h' a blk pre ?_]
    · exact htpre
    · intro b hbm
      have hbbnd := tilesTo_bounds h a blk pre htpre b hbm
      have hbm2 : b ∈ pre ++ blk :: post := by simp [hbm]
      have hw := hother b hbm2 (by omega)
      simp [getsize, hw]
  · rw [tilesTo_cons]
    refine ⟨rfl, by omega, by rw [hgblk]; exact h8, ?_⟩
    rw [hgblk, tilesTo_cons]
    refine ⟨rfl, by omega, by rw [hgrem]; omega, ?_⟩
    rw [hgrem]
    have hsum : blk + needed + rem = blk + getsize h blk := by omega
    rw [hsum, tilesTo_congr h h' _ _ post ?_]
    · exact htpost
    · intro b hbm
      have hbbnd := tilesTo_bounds h _ _ post htpost b hbm
      have hbm2 : b ∈ pre ++ blk :: post := by simp [hbm]
      have hw := hother b hbm2 (by omega)
      simp [getsize, hw]

/-- Reduction of `mymalloc` along its successful path: guards pass, the
first-free scan yields `ff`, the first-fit search yields `blk`. -/
theorem mymalloc_unfold (fuel : Nat) (h : Heap) (req ff blk : Nat)
    (hreq : ¬ req = 0)
    (hg1 : ¬ (roundup req ALIGNMENT + h.nused) % W > h.segment_size)
    (hg2 : ¬ roundup req ALIGNMENT > MAX_REQUEST_SIZE)
    (hff : getfirstfree fuel h = some ff) (hff0 : ff ≠ 0)
    (hml : mallocLoop fuel h (roundup req ALIGNMENT) ff = some blk)
    (hblk0 : blk ≠ 0) :
    mymalloc fuel h req =
      (updatelinkedlist fuel
        (if 40 ≤ getsize h blk - roundup req ALIGNMENT then
          { placeheader (placeheader h (blk + roundup req ALIGNMENT)
              (getsize h blk - roundup req ALIGNMENT) 0) blk (roundup req ALIGNMENT) 1 with
            nused := (h.nused + roundup req ALIGNMENT) % W }
        else
          { placeheader h blk (getsize h blk) 1 with
            nused := (h.nused + getsize h blk) % W })).map
        (fun h2 => (h2, blk + HEADER_SIZE)) := by
  obtain ⟨fk, rfl⟩ : ∃ k, ff = k + 1 := ⟨ff - 1, by omega⟩
  obtain ⟨bk, rfl⟩ : ∃ k, blk = k + 1 := ⟨blk - 1, by omega⟩
  rw [mymalloc]
  simp only [if_neg hreq, if_neg hg1, if_neg hg2, hff, hml, placeheader_nused]

theorem headD_mem (l : List Nat) (hne : l ≠ []) : l.headD 0 ∈ l := by
  cases l with
  | nil => exact absurd rfl hne
  | cons x xs => simp

/-- The blocks strictly before and after a listed block in a tiling. -/
theorem tiles_decomp_bounds (h : Heap) (a : Nat) (pre post : List Nat) (blk : Nat)
    (ht : tilesB h a (pre ++ blk :: post) = true) :
    (∀ p ∈ pre, p + getsize h p ≤ blk) ∧
      (∀ c ∈ post, blk + getsize h blk ≤ c) := by
  have hp := tiles_pairwise h a _ ht
  rw [List.pairwise_append] at hp
  constructor
  · intro p hpm
    exact hp.2.2 p hpm blk (by simp)
  · intro c hc
    exact (List.rel_of_pairwise_cons hp.2.1) hc

theorem getsize_even (h : Heap) (a : Nat) : getsize h a % 2 = 0 := by
  simp [getsize]
  omega

theorem tilesB_nused (h : Heap) (n a : Nat) (bl : List Nat) :
    tilesB { h with nused := n } a bl = tilesB h a bl :=
  tiles_congr h { h with nused := n } a bl rfl (fun _ _ => rfl)

theorem freelist_nused (h : Heap) (n : Nat) (bl : List Nat) :
    freelist { h with nused := n } bl = freelist h bl :=
  freelist_congr h { h with nused := n } bl (fun _ _ => rfl)

/-- Marking a listed block in-use (same size) preserves the tiling. -/
theorem tiles_update_inuse (h h' : Heap) (a : Nat) (bl : List Nat) (blk : Nat)
    (ht : tilesB h a bl = true) (hblk : blk ∈ bl)
    (hW : blockEnd h < 2 ^ 63)
    (hh' : h' = placeheader h blk (getsize h blk) 1) :
    tilesB h' a bl = true ∧ getsize h' blk = getsize h blk ∧
      isfree h' blk = false ∧
      (∀ b ∈ bl, b ≠ blk → word h' b = word h b) ∧
      (∀ x, x ≠ blk → h'.mem x = h.mem x) := by
  have hbnd := tiles_bounds h a bl ht blk hblk
  have hgsW : getsize h blk + 1 < W := by
    have h63 : (2 : Nat) ^ 63 < W := by norm_num [W]
    omega
  have hwblk : word h' blk = getsize h blk + 1 := by
    rw [hh', word_placeheader_self_used _ _ _ (getsize_even h blk) hgsW]
  have hgblk : getsize h' blk = getsize h blk := by
    simp [getsize, hwblk]
    omega
  have hfblk : isfree h' blk = false := by
    simp [isfree, hwblk]
    omega
  have hother : ∀ b ∈ bl, b ≠ blk → word h' b = word h b := by
    intro b _ hbne
    rw [hh', word_placeheader_ne _ _ _ _ _ hbne]
  have hmemx : ∀ x, x ≠ blk → h'.mem x = h.mem x := by
    intro x hx
    rw [hh']
    simp [placeheader, writeWord, hx]
  refine ⟨?_, hgblk, hfblk, hother, hmemx⟩
  refine tiles_update_sizes h h' a bl ht ?_ (by rw [hh']; simp)
  intro b hb
  rcases Decidable.em (b = blk) with hbe | hbe
  · rw [hbe, hgblk]
  · simp [getsize, hother b hb hbe]

/-- Master postcondition of a successful `mymalloc`.  `blk` is the block the
first-fit search selects (the `find?` hypothesis) and `bl = pre ++ blk :: post`
locates it in the tiling.  The final conjunct limits all memory mutation to
the spans of blocks that were free before the call. -/
theorem mymalloc_spec (h : Heap) (bl pre post : List Nat) (req fuel blk : Nat)
    (hwf : WFb h bl = true) (hlink : LinkedB h bl = true)
    (hfuel : bl.length + 1 < fuel)
    (hreq0 : ¬ req = 0)
    (hg1 : ¬ (roundup req ALIGNMENT + h.nused) % W > h.segment_size)
    (hg2 : ¬ roundup req ALIGNMENT > MAX_REQUEST_SIZE)
    (hneed24 : 24 ≤ roundup req ALIGNMENT)
    (hneed8 : roundup req ALIGNMENT % 8 = 0)
    (hfind : (freelist h bl).find?
      (fun g => decide (roundup req ALIGNMENT ≤ getsize h g)) = some blk)
    (hdecomp : bl = pre ++ blk :: post) :
    ∃ h2,
      mymalloc fuel h req = some (h2, blk + 8) ∧
      h2.segment_start = h.segment_start ∧ h2.segment_size = h.segment_size ∧
      isfree h2 blk = false ∧
      (∀ a, (∀ b ∈ bl, isfree h b = true → a < b ∨ b + getsize h b ≤ a) →
        h2.mem a = h.mem a) ∧
      (40 ≤ getsize h blk - roundup req ALIGNMENT →
        WFb h2 (pre ++ blk :: (blk + roundup req ALIGNMENT) :: post) = true ∧
        LinkedB h2 (pre ++ blk :: (blk + roundup req ALIGNMENT) :: post) = true ∧
        getsize h2 blk = roundup req ALIGNMENT ∧
        getsize h2 (blk + roundup req ALIGNMENT) =
          getsize h blk - roundup req ALIGNMENT ∧
        isfree h2 (blk + roundup req ALIGNMENT) = true ∧
        h2.nused = (h.nused + roundup req ALIGNMENT) % W) ∧
      (getsize h blk - roundup req ALIGNMENT < 40 →
        WFb h2 bl = true ∧ LinkedB h2 bl = true ∧
        getsize h2 blk = getsize h blk ∧
        h2.nused = (h.nused + getsize h blk) % W) := by
  obtain ⟨hs, ha, he, ht⟩ := WFb_unpack h bl hwf
  have hblkfree : blk ∈ freelist h bl := List.mem_of_find?_eq_some hfind
  have hfit : roundup req ALIGNMENT ≤ getsize h blk := by
    have := List.find?_some hfind
    simpa using this
  have hblkbl : blk ∈ bl := (freelist_mem h bl blk hblkfree).1
  have hblkisfree : isfree h blk = true := (freelist_mem h bl blk hblkfree).2
  have hblkbnd := tiles_bounds h h.segment_start bl ht blk hblkbl
  have hflne : freelist h bl ≠ [] := by
    intro h0
    rw [h0] at hblkfree
    simp at hblkfree
  have hgff : getfirstfree fuel h = some ((freelist h bl).headD 0) :=
    getfirstfreeLoop_eq bl h h.segment_start fuel ht (by omega) hflne
  obtain ⟨f1, fs, hfl⟩ : ∃ f1 fs, freelist h bl = f1 :: fs := by
    rcases hfl0 : freelist h bl with _ | ⟨x, xs⟩
    · exact absurd hfl0 hflne
    · exact ⟨x, xs, rfl⟩
  have hgff2 : getfirstfree fuel h = some f1 := by
    rw [hgff, hfl]
    rfl
  have hf1pos : 0 < f1 := (freelist_pos h bl hwf f1 (by rw [hfl]; simp)).1
  have hblk0 : blk ≠ 0 := by
    have := freelist_pos h bl hwf blk hblkfree
    omega
  have hlink2 : chainedB h 0 (f1 :: fs) = true := by
    have hl := hlink
    rw [LinkedB, hfl] at hl
    exact hl
  have hlen : fs.length + 1 < fuel := by
    have h1 : (freelist h bl).length ≤ bl.length := List.length_filter_le _ _
    rw [hfl] at h1
    simp at h1
    omega
  have hml : mallocLoop fuel h (roundup req ALIGNMENT) f1 = some blk := by
    have hm := mallocLoop_eq fs h (roundup req ALIGNMENT) 0 f1 fuel hlink2 hlen
      (fun g hg => (freelist_pos h bl hwf g (by rw [hfl]; exact hg)).1)
    rw [← hfl, hfind] at hm
    simpa using hm
  have hunfold := mymalloc_unfold fuel h req f1 blk hreq0 hg1 hg2 hgff2
    (by omega) hml hblk0
  have hdb := tiles_decomp_bounds h h.segment_start pre post blk
    (by rw [← hdecomp]; exact ht)
  have hprene : ∀ p ∈ pre, p ≠ blk := by
    intro p hp
    have h1 := hdb.1 p hp
    have h2 := tiles_bounds h h.segment_start bl ht p (by rw [hdecomp]; simp [hp])
    omega
  have hpostne : ∀ c ∈ post, c ≠ blk := by
    intro c hc
    have h1 := hdb.2 c hc
    omega
  rcases Nat.lt_or_ge (getsize h blk - roundup req ALIGNMENT) 40 with hcase | hcase
  · -- no split: the whole block is taken
    have hnosplit : ¬ 40 ≤ getsize h blk - roundup req ALIGNMENT := by omega
    obtain ⟨hts, hgblk, hfblk, hother, hmemx⟩ :=
      tiles_update_inuse h (placeheader h blk (getsize h blk) 1) h.segment_start
        bl blk ht hblkbl he rfl
    set h1 := { placeheader h blk (getsize h blk) 1 with
      nused := (h.nused + getsize h blk) % W } with hh1
    have hts1 : tilesB h1 h1.segment_start bl = true := by
      rw [hh1]
      show tilesB _ (placeheader h blk (getsize h blk) 1).segment_start bl = true
      rw [tilesB_nused]
      simpa using hts
    have hwf1 : WFb h1 bl = true := by
      simp only [WFb, Bool.and_eq_true, decide_eq_true_eq]
      exact ⟨⟨⟨hs, ha⟩, he⟩, hts1⟩
    have hlen2 : bl.length < fuel := by omega
    have hupd : updatelinkedlist fuel h1 = some (processFrees h1 0 (freelist h1 bl)) :=
      updatelinkedlist_eq h1 bl fuel hwf1 hlen2
    refine ⟨processFrees h1 0 (freelist h1 bl), ?_, ?_, ?_, ?_, ?_, ?_, ?_⟩
    · rw [hunfold, if_neg hnosplit, hupd]
      rfl
    · rw [processFrees_start]
      rfl
    · rw [processFrees_size]
      rfl
    · have hw := updll_word_blocks h1 bl hts1 blk hblkbl
      have hw1 : word h1 blk = getsize h blk + 1 := by
        rw [hh1]
        show word (placeheader h blk (getsize h blk) 1) blk = _
        rw [word_placeheader_self_used _ _ _ (getsize_even h blk) (by
          have h63 : (2 : Nat) ^ 63 < W := by norm_num [W]
          omega)]
      simp [isfree, hw, hw1]
      omega
    · -- memory preservation
      intro a hspan
      have hablk : a ≠ blk := by
        have := hspan blk hblkbl hblkisfree
        omega
      rw [processFrees_mem_eq, hh1]
      · show (placeheader h blk (getsize h blk) 1).mem a = h.mem a
        exact hmemx a hablk
      · intro f hf
        have hfbl : f ∈ bl := (freelist_mem h1 bl f hf).1
        have hffr1 : isfree h1 f = true := (freelist_mem h1 bl f hf).2
        have hfne : f ≠ blk := by
          intro heq
          rw [heq] at hffr1
          have : isfree h1 blk = false := by
            rw [hh1]
            show isfree (placeheader h blk (getsize h blk) 1) blk = false
            exact hfblk
          rw [this] at hffr1
          exact absurd hffr1 (by simp)
        have hwf2 : word h1 f = word h f := by
          rw [hh1]
          show word (placeheader h blk (getsize h blk) 1) f = word h f
          exact hother f hfbl hfne
        have hffr : isfree h f = true := by
          rw [isfree] at hffr1 ⊢
          rw [hwf2] at hffr1
          exact hffr1
        have hbnd := tiles_bounds h h.segment_start bl ht f hfbl
        have := hspan f hfbl hffr
        constructor <;> omega
      · intro h0
        exact absurd rfl h0
    · intro hc
      omega
    · intro _
      have hwords := updll_word_blocks h1 bl hts1
      refine ⟨updll_wf h1 bl hwf1, updll_linked h1 bl hwf1, ?_, ?_⟩
      · have hw := hwords blk hblkbl
        have : getsize h1 blk = getsize h blk := by
          rw [hh1]
          show getsize (placeheader h blk (getsize h blk) 1) blk = _
          exact hgblk
        simp [getsize, hw]
        simp [getsize] at this
        omega
      · rw [processFrees_nused]
  · -- split
    have hrem40 : roundup req ALIGNMENT + 40 ≤ getsize h blk := by omega
    obtain ⟨hts, hgblk, hfblk, hgrem, hfrem, hother, hmemx⟩ :=
      tiles_update_split h
        (placeheader (placeheader h (blk + roundup req ALIGNMENT)
          (getsize h blk - roundup req ALIGNMENT) 0) blk (roundup req ALIGNMENT) 1)
        h.segment_start pre post blk (roundup req ALIGNMENT)
        (getsize h blk - roundup req ALIGNMENT)
        (by rw [← hdecomp]; exact ht) hneed24 hneed8 rfl hrem40 he rfl
    set h1b := placeheader (placeheader h (blk + roundup req ALIGNMENT)
      (getsize h blk - roundup req ALIGNMENT) 0) blk (roundup req ALIGNMENT) 1 with hh1b
    set bl2 := pre ++ blk :: (blk + roundup req ALIGNMENT) :: post with hbl2
    set h1 := { h1b with nused := (h.nused + roundup req ALIGNMENT) % W } with hh1
    have hts1 : tilesB h1 h1.segment_start bl2 = true := by
      rw [hh1]
      show tilesB _ h1b.segment_start bl2 = true
      rw [tilesB_nused]
      show tilesB h1b h.segment_start bl2 = true
      exact hts
    have hwf1 : WFb h1 bl2 = true := by
      simp only [WFb, Bool.and_eq_true, decide_eq_true_eq]
      exact ⟨⟨⟨hs, ha⟩, he⟩, hts1⟩
    have hlen2 : bl2.length < fuel := by
      rw [hbl2]
      rw [hdecomp] at hfuel
      simp at hfuel ⊢
      omega
    have hupd : updatelinkedlist fuel h1 = some (processFrees h1 0 (freelist h1 bl2)) :=
      updatelinkedlist_eq h1 bl2 fuel hwf1 hlen2
    have hblkbl2 : blk ∈ bl2 := by
      rw [hbl2]
      simp
    have hrembl2 : blk + roundup req ALIGNMENT ∈ bl2 := by
      rw [hbl2]
      simp
    have hwords := updll_word_blocks h1 bl2 hts1
    refine ⟨processFrees h1 0 (freelist h1 bl2), ?_, ?_, ?_, ?_, ?_, ?_, ?_⟩
    · rw [hunfold, if_pos hcase, hupd]
      rfl
    · rw [processFrees_start]
      rfl
    · rw [processFrees_size]
      rfl
    · have hw := hwords blk hblkbl2
      have hw1 : word h1 blk = roundup req ALIGNMENT + 1 := by
        rw [hh1]
        show word h1b blk = _
        simp [getsize] at hgblk
        have := word_lt h1b blk
        rw [isfree] at hfblk
        simp at hfblk
        omega
      simp [isfree, hw, hw1]
      omega
    · -- memory preservation
      intro a hspan
      have hablk : a ≠ blk := by
        have := hspan blk hblkbl hblkisfree
        omega
      have harem : a ≠ blk + roundup req ALIGNMENT := by
        have := hspan blk hblkbl hblkisfree
        omega
      rw [processFrees_mem_eq, hh1]
      · show h1b.mem a = h.mem a
        exact hmemx a hablk harem
      · intro f hf
        have hfbl2 : f ∈ bl2 := (freelist_mem h1 bl2 f hf).1
        have hffr1 : isfree h1 f = true := (freelist_mem h1 bl2 f hf).2
        have hspanblk := hspan blk hblkbl hblkisfree
        rw [hbl2] at hfbl2
        rcases List.mem_append.mp hfbl2 with hfp | hfc
        · -- f in pre
          have hfne : f ≠ blk := hprene f hfp
          have hfmem : f ∈ pre ++ blk :: post := by simp [hfp]
          have hwf2 : word h1 f = word h f := by
            rw [hh1]
            show word h1b f = word h f
            exact hother f hfmem hfne
          have hffr : isfree h f = true := by
            rw [isfree] at hffr1 ⊢
            rw [hwf2] at hffr1
            exact hffr1
          have hfbl : f ∈ bl := by
            rw [hdecomp]
            simp [hfp]
          have hbnd := tiles_bounds h h.segment_start bl ht f hfbl
          have := hspan f hfbl hffr
          constructor <;> omega
        · rcases List.mem_cons.mp hfc with hfe | hfc2
          · -- f = blk: but blk is in-use in h1
            exfalso
            have : isfree h1 blk = false := by
              rw [hh1]
              show isfree h1b blk = false
              exact hfblk
            rw [hfe, this] at hffr1
            exact absurd hffr1 (by simp)
          · rcases List.mem_cons.mp hfc2 with hfe | hfc3
            · -- f = the remainder block: its links sit inside blk's old span
              rw [hfe]
              constructor <;> omega
            · -- f in post
              have hfne : f ≠ blk := hpostne f hfc3
              have hfmem : f ∈ pre ++ blk :: post := by simp [hfc3]
              have hwf2 : word h1 f = word h f := by
                rw [hh1]
                show word h1b f = word h f
                exact hother f hfmem hfne
              have hffr : isfree h f = true := by
                rw [isfree] at hffr1 ⊢
                rw [hwf2] at hffr1
                exact hffr1
              have hfbl : f ∈ bl := by
                rw [hdecomp]
                simp [hfc3]
              have hbnd := tiles_bounds h h.segment_start bl ht f hfbl
              have := hspan f hfbl hffr
              constructor <;> omega
      · intro h0
        exact absurd rfl h0
    · intro _
      refine ⟨updll_wf h1 bl2 hwf1, updll_linked h1 bl2 hwf1, ?_, ?_, ?_, ?_⟩
      · have hw := hwords blk hblkbl2
        have hg1b : getsize h1 blk = roundup req ALIGNMENT := by
          rw [hh1]
          show getsize h1b blk = _
          exact hgblk
        simp [getsize] at hg1b ⊢
        omega
      · have hw := hwords _ hrembl2
        have hg1b : getsize h1 (blk + roundup req ALIGNMENT) =
            getsize h blk - roundup req ALIGNMENT := by
          rw [hh1]
          show getsize h1b _ = _
          exact hgrem
        simp [getsize] at hg1b ⊢
        omega
      · have hw := hwords _ hrembl2
        have hf1b : isfree h1 (blk + roundup req ALIGNMENT) = true := by
          rw [hh1]
          show isfree h1b _ = true
          exact hfrem
        rw [isfree] at hf1b ⊢
        rw [hw]
        exact hf1b
      · rw [processFrees_nused]
    · intro hc
      omega

/-!
## Release: right coalescing
-/

theorem takeWhile_congr_mem (l : List Nat) (p q : Nat → Bool)
    (hpq : ∀ b ∈ l, p b = q b) : l.takeWhile p = l.takeWhile q := by
  induction l with
  | nil => rfl
  | cons x xs ih =>
    have hx := hpq x (by simp)
    rw [List.takeWhile_cons, List.takeWhile_cons, hx,
      ih (fun b hb => hpq b (by simp [hb]))]

theorem dropWhile_congr_mem (l : List Nat) (p q : Nat → Bool)
    (hpq : ∀ b ∈ l, p b = q b) : l.dropWhile p = l.dropWhile q := by
  induction l with
  | nil => rfl
  | cons x xs ih =>
    have hx := hpq x (by simp)
    rw [List.dropWhile_cons, List.dropWhile_cons, hx,
      ih (fun b hb => hpq b (by simp [hb]))]

/-- The coalescing loop of `myfree`: absorbs exactly the maximal run of free
blocks immediately to the right, writing only the current block's header and
`nextptr`. -/
theorem freeLoop_spec (post : List Nat) : ∀ (h : Heap) (blk fuel : Nat),
    tilesTo h blk (blockEnd h) (blk :: post) = true →
    isfree h blk = true →
    blockEnd h < 2 ^ 63 →
    post.length < fuel →
    ∃ hF, freeLoop fuel h blk = some hF ∧
      (∀ x, x ≠ blk → x ≠ blk + 16 → hF.mem x = h.mem x) ∧
      hF.segment_start = h.segment_start ∧ hF.segment_size = h.segment_size ∧
      hF.nused = h.nused ∧
      isfree hF blk = true ∧
      getsize hF blk = getsize h blk +
        ((post.takeWhile (fun g => isfree h g)).map (fun g => getsize h g)).sum ∧
      tilesTo hF blk (blockEnd h) (blk :: post.dropWhile (fun g => isfree h g)) = true := by
  induction post with
  | nil =>
    intro h blk fuel ht hfree hend hfuel
    rw [tilesTo_cons] at ht
    obtain ⟨-, h24, h8, hrest⟩ := ht
    rw [tilesTo_nil] at hrest
    rcases fuel with _ | fuel
    · omega
    refine ⟨h, ?_, fun x _ _ => rfl, rfl, rfl, rfl, hfree, by simp, ?_⟩
    · rw [freeLoop]
      rw [if_neg (by omega : ¬ (blk + getsize h blk < blockEnd h ∧
        isfree h (blk + getsize h blk) = true))]
    · simp [tilesTo_cons, tilesTo_nil, h24, h8, hrest]
  | cons g rest ih =>
    intro h blk fuel ht hfree hend hfuel
    rw [tilesTo_cons] at ht
    obtain ⟨-, h24, h8, hmid⟩ := ht
    have hg : g = blk + getsize h blk :=
      ((tilesTo_cons h _ _ g rest).mp hmid).1
    subst hg
    rw [tilesTo_cons] at hmid
    obtain ⟨-, hg24, hg8, hrest⟩ := hmid
    have hgbnd := tilesTo_bounds h _ _ rest hrest
    have hgend : blk + getsize h blk + getsize h (blk + getsize h blk) ≤ blockEnd h := by
      rcases rest with _ | ⟨d, ds⟩
      · rw [tilesTo_nil] at hrest
        omega
      · have h1 := (hgbnd d (by simp)).1
        have h2 := (hgbnd d (by simp)).2.1
        omega
    rcases fuel with _ | fuel
    · omega
    rcases Bool.eq_false_or_eq_true (isfree h (blk + getsize h blk)) with hgfree | hgfree
    case inr =>
      -- right neighbor in use: loop stops immediately
      refine ⟨h, ?_, fun x _ _ => rfl, rfl, rfl, rfl, hfree, ?_, ?_⟩
      · rw [freeLoop]
        rw [if_neg ?_]
        intro hand
        rw [hand.2] at hgfree
        exact absurd hgfree (by simp)
      · rw [List.takeWhile_cons, hgfree]
        simp
      · rw [List.dropWhile_cons, hgfree]
        simp only [if_neg (by simp : ¬ false = true)]
        rw [tilesTo_cons]
        refine ⟨rfl, h24, h8, ?_⟩
        rw [tilesTo_cons]
        exact ⟨rfl, hg24, hg8, hrest⟩
    case inl =>
      -- absorb the free neighbor, then continue
      have hglt : blk + getsize h blk < blockEnd h := by omega
      have hcond : blk + getsize h blk < blockEnd h ∧
          isfree h (blk + getsize h blk) = true := ⟨hglt, hgfree⟩
      have hsumW : getsize h blk + getsize h (blk + getsize h blk) < W := by
        have h63 : (2 : Nat) ^ 63 < W := by norm_num [W]
        omega
      set h1 := placeheader h blk (getsize h blk + getsize h (blk + getsize h blk)) 0
        with hh1
      set h2 := setnextptr h1 blk (getnextptr h1 (blk + getsize h blk)) with hh2
      have hmem2 : ∀ x, x ≠ blk → x ≠ blk + 16 → h2.mem x = h.mem x := by
        intro x hx1 hx2
        rw [hh2, setnextptr_eq, hh1]
        simp [writeWord, placeheader, hx1, hx2]
      have hword2 : ∀ x, x ≠ blk → x ≠ blk + 16 → word h2 x = word h x := by
        intro x hx1 hx2
        rw [word, word, hmem2 x hx1 hx2]
      have hw2blk : word h2 blk = getsize h blk + getsize h (blk + getsize h blk) := by
        rw [hh2, setnextptr_eq, word_writeWord_ne _ _ _ _ (by omega), hh1,
          word_placeheader_self_free _ _ _ hsumW]
      have hg2blk : getsize h2 blk = getsize h blk + getsize h (blk + getsize h blk) := by
        simp [getsize, hw2blk]
        omega
      have hf2blk : isfree h2 blk = true := by
        simp [isfree, hw2blk]
        omega
      have hrestw : ∀ b ∈ rest, word h2 b = word h b := by
        intro b hb
        have h1b := (hgbnd b hb).1
        exact hword2 b (by omega) (by omega)
      have hrestsz : ∀ b ∈ rest, getsize h2 b = getsize h b := by
        intro b hb
        simp [getsize, hrestw b hb]
      have hend2 : blockEnd h2 = blockEnd h := rfl
      have ht2 : tilesTo h2 blk (blockEnd h2) (blk :: rest) = true := by
        rw [hend2, tilesTo_cons]
        refine ⟨rfl, by omega, by rw [hg2blk]; omega, ?_⟩
        rw [hg2blk]
        have hstart : blk + (getsize h blk + getsize h (blk + getsize h blk)) =
            blk + getsize h blk + getsize h (blk + getsize h blk) := by omega
        rw [hstart, tilesTo_congr h h2 _ _ rest hrestsz]
        exact hrest
      obtain ⟨hF, hFeq, hFmem, hFs1, hFs2, hFn, hFfree, hFsize, hFtiles⟩ :=
        ih h2 blk fuel ht2 hf2blk
          (by rw [hend2]; exact hend) (by simp at hfuel; omega)
      have htw : rest.takeWhile (fun b => isfree h2 b) =
          rest.takeWhile (fun b => isfree h b) := by
        refine takeWhile_congr_mem rest _ _ ?_
        intro b hb
        simp [isfree, hrestw b hb]
      have hdw : rest.dropWhile (fun b => isfree h2 b) =
          rest.dropWhile (fun b => isfree h b) := by
        refine dropWhile_congr_mem rest _ _ ?_
        intro b hb
        simp [isfree, hrestw b hb]
      refine ⟨hF, ?_, ?_, hFs1, hFs2, hFn, hFfree, ?_, ?_⟩
      · rw [freeLoop, if_pos hcond]
        exact hFeq
      · intro x hx1 hx2
        rw [hFmem x hx1 hx2, hmem2 x hx1 hx2]
      · rw [hFsize, hg2blk, htw]
        have hseq : ((blk + getsize h blk) :: rest).takeWhile (fun g => isfree h g)
            = (blk + getsize h blk) :: rest.takeWhile (fun g => isfree h g) := by
          simp [List.takeWhile_cons, hgfree]
        rw [hseq, List.map_cons, List.sum_cons]
        have hmapeq : (rest.takeWhile (fun b => isfree h b)).map
              (fun b => getsize h2 b) =
            (rest.takeWhile (fun b => isfree h b)).map (fun b => getsize h b) := by
          refine List.map_congr_left ?_
          intro b hb
          exact hrestsz b ((List.takeWhile_sublist _).subset hb)
        rw [hmapeq]
        omega
      · have hdeq : ((blk + getsize h blk) :: rest).dropWhile (fun g => isfree h g)
            = rest.dropWhile (fun g => isfree h g) := by
          simp [List.dropWhile_cons, hgfree]
        rw [hdeq, ← hdw]
        rw [hend2] at hFtiles
        exact hFtiles

/-- Master postcondition of `myfree` on a payload pointer of a listed block:
the block is marked free keeping its size, the maximal run of free blocks to
its right is absorbed, blocks to the left are untouched, and the free list is
rebuilt.  `nused` is not changed.  The final conjunct limits mutation to the
spans of blocks free before the call plus the span of `blk` itself. -/
theorem myfree_spec (h : Heap) (bl pre post : List Nat) (blk fuel : Nat)
    (hwf : WFb h bl = true)
    (hdecomp : bl = pre ++ blk :: post)
    (hfuel : bl.length + 1 < fuel) :
    ∃ h3,
      myfree fuel h (blk + 8) = some h3 ∧
      h3.segment_start = h.segment_start ∧ h3.segment_size = h.segment_size ∧
      h3.nused = h.nused ∧
      isfree h3 blk = true ∧
      getsize h3 blk = getsize h blk +
        ((post.takeWhile (fun g => isfree h g)).map (fun g => getsize h g)).sum ∧
      WFb h3 (pre ++ blk :: post.dropWhile (fun g => isfree h g)) = true ∧
      LinkedB h3 (pre ++ blk :: post.dropWhile (fun g => isfree h g)) = true ∧
      (∀ b ∈ pre, word h3 b = word h b) ∧
      (∀ a, (∀ b ∈ bl, isfree h b = true → a < b ∨ b + getsize h b ≤ a) →
        (a < blk ∨ blk + getsize h blk ≤ a) → h3.mem a = h.mem a) := by
  obtain ⟨hs, ha, he, ht⟩ := WFb_unpack h bl hwf
  have hblkbl : blk ∈ bl := by rw [hdecomp]; simp
  have hblkbnd := tiles_bounds h h.segment_start bl ht blk hblkbl
  have hdb := tiles_decomp_bounds h h.segment_start pre post blk
    (by rw [← hdecomp]; exact ht)
  have hpre_lt : ∀ p ∈ pre, p + 24 ≤ blk := by
    intro p hp
    have h1 := hdb.1 p hp
    have h2 := tiles_bounds h h.segment_start bl ht p (by rw [hdecomp]; simp [hp])
    omega
  have hpost_gt : ∀ c ∈ post, blk + getsize h blk ≤ c := hdb.2
  have hp0 : ¬ blk + 8 = 0 := by omega
  have hq : blk + 8 - HEADER_SIZE = blk := by simp [HEADER_SIZE]
  -- the heap after clearing the status bit
  set hm := writeWord h blk (word h blk - word h blk % 2) with hhm
  have hmmem : ∀ x, x ≠ blk → hm.mem x = h.mem x := by
    intro x hx
    rw [hhm]
    simp [writeWord, hx]
  have hmword : ∀ x, x ≠ blk → word hm x = word h x := by
    intro x hx
    rw [word, word, hmmem x hx]
  have hmblk : word hm blk = getsize h blk := by
    rw [hhm, word_writeWord_self]
    exact Nat.mod_eq_of_lt (getsize_lt h blk)
  have hmgs : getsize hm blk = getsize h blk := by
    have he2 := getsize_even h blk
    simp [getsize, hmblk]
    omega
  have hmfree : isfree hm blk = true := by
    have he2 := getsize_even h blk
    simp [isfree, hmblk]
    omega
  have hmsizes : ∀ b ∈ bl, getsize hm b = getsize h b := by
    intro b hb
    rcases Decidable.em (b = blk) with hbe | hbe
    · rw [hbe, hmgs]
    · simp [getsize, hmword b hbe]
  have hmend : blockEnd hm = blockEnd h := rfl
  have hmt : tilesB hm h.segment_start bl = true :=
    tiles_update_sizes h hm h.segment_start bl ht hmsizes hmend
  -- split the tiling at blk
  have hmt2 : tilesTo hm h.segment_start blk pre = true ∧
      tilesTo hm blk (blockEnd h) (blk :: post) = true := by
    have := hmt
    rw [hdecomp] at this
    rw [tilesB, hmend] at this
    exact (tilesTo_append hm pre post h.segment_start (blockEnd h) blk).mp this
  -- run the coalescing loop
  obtain ⟨hF, hFeq, hFmem, hFs1, hFs2, hFn, hFfree, hFsize, hFtiles⟩ :=
    freeLoop_spec post hm blk fuel (by rw [hmend]; exact hmt2.2) hmfree
      (by rw [hmend]; exact he)
      (by rw [hdecomp] at hfuel; simp at hfuel; omega)
  have htwpost : post.takeWhile (fun g => isfree hm g) =
      post.takeWhile (fun g => isfree h g) := by
    refine takeWhile_congr_mem post _ _ ?_
    intro b hb
    have := hpost_gt b hb
    simp [isfree, hmword b (by omega)]
  have hdwpost : post.dropWhile (fun g => isfree hm g) =
      post.dropWhile (fun g => isfree h g) := by
    refine dropWhile_congr_mem post _ _ ?_
    intro b hb
    have := hpost_gt b hb
    simp [isfree, hmword b (by omega)]
  have hFsize2 : getsize hF blk = getsize h blk +
      ((post.takeWhile (fun g => isfree h g)).map (fun g => getsize h g)).sum := by
    rw [hFsize, hmgs, htwpost]
    have hmapeq : (post.takeWhile (fun g => isfree h g)).map (fun g => getsize hm g) =
        (post.takeWhile (fun g => isfree h g)).map (fun g => getsize h g) := by
      refine List.map_congr_left ?_
      intro b hb
      have hbp := (List.takeWhile_sublist _).subset hb
      have := hpost_gt b hbp
      simp [getsize, hmword b (by omega)]
    rw [hmapeq]
  set post2 := post.dropWhile (fun g => isfree h g) with hpost2
  set bl3 := pre ++ blk :: post2 with hbl3
  have hpost2sub : ∀ c ∈ post2, c ∈ post := by
    intro c hc
    rw [hpost2] at hc
    exact (List.dropWhile_sublist _).subset hc
  have hFword : ∀ x, x ≠ blk → x ≠ blk + 16 → word hF x = word h x := by
    intro x hx1 hx2
    rw [word, word, hFmem x hx1 hx2, hmmem x hx1]
  have hFpre : ∀ b ∈ pre, word hF b = word h b := by
    intro b hb
    have := hpre_lt b hb
    exact hFword b (by omega) (by omega)
  have hFpost2 : ∀ b ∈ post2, word hF b = word h b := by
    intro b hb
    have := hpost_gt b (hpost2sub b hb)
    exact hFword b (by omega) (by omega)
  have hFend : blockEnd hF = blockEnd h := by
    rw [blockEnd, blockEnd, hFs1, hFs2]
    rfl
  have ht3 : tilesB hF h.segment_start bl3 = true := by
    rw [hbl3, tilesB, hFend, tilesTo_append]
    constructor
    · rw [tilesTo_congr hm hF h.segment_start blk pre ?_]
      · exact hmt2.1
      · intro b hb
        have hwp : word hF b = word hm b := by
          have := hpre_lt b hb
          rw [word, word, hFmem b (by omega) (by omega)]
        simp [getsize, hwp]
    · rw [← hdwpost]
      exact hFtiles
  have hwf3 : WFb hF bl3 = true := by
    simp only [WFb, Bool.and_eq_true, decide_eq_true_eq]
    have hst : hF.segment_start = h.segment_start := hFs1
    rw [hst, hFend]
    exact ⟨⟨⟨hs, ha⟩, he⟩, ht3⟩
  have hlen3 : bl3.length < fuel := by
    have hd2 : post2.length ≤ post.length :=
      (post.dropWhile_sublist (fun g => isfree h g)).length_le
    have h1 : bl.length = pre.length + (post.length + 1) := by
      rw [hdecomp]
      simp
    rw [hbl3]
    simp only [List.length_append, List.length_cons]
    omega
  have hupd : updatelinkedlist fuel hF = some (processFrees hF 0 (freelist hF bl3)) :=
    updatelinkedlist_eq hF bl3 fuel hwf3 hlen3
  have hblkbl3 : blk ∈ bl3 := by rw [hbl3]; simp
  have ht3s : tilesB hF hF.segment_start bl3 = true := by
    rw [hFs1]
    exact ht3
  have hwords := updll_word_blocks hF bl3 ht3s
  refine ⟨processFrees hF 0 (freelist hF bl3), ?_, ?_, ?_, ?_, ?_, ?_, ?_, ?_, ?_, ?_⟩
  · rw [myfree, if_neg hp0]
    simp only [hq]
    rw [← hhm, hFeq]
    exact hupd
  · rw [processFrees_start, hFs1]
    rfl
  · rw [processFrees_size, hFs2]
    rfl
  · rw [processFrees_nused, hFn]
    rfl
  · rw [isfree] at hFfree ⊢
    rw [hwords blk hblkbl3]
    exact hFfree
  · rw [← hFsize2]
    simp [getsize, hwords blk hblkbl3]
  · exact updll_wf hF bl3 hwf3
  · exact updll_linked hF bl3 hwf3
  · intro b hb
    rw [hwords b (by rw [hbl3]; simp [hb]), hFpre b hb]
  · -- memory preservation off the free spans and off blk's span
    intro a hspan hablk
    have hgs24 : 24 ≤ getsize h blk := hblkbnd.2.2.1
    rw [processFrees_mem_eq, hFmem a (by omega) (by omega), hmmem a (by omega)]
    · intro f hf
      have hfbl3 : f ∈ bl3 := (freelist_mem hF bl3 f hf).1
      have hffree : isfree hF f = true := (freelist_mem hF bl3 f hf).2
      rw [hbl3] at hfbl3
      rcases List.mem_append.mp hfbl3 with hfp | hfc
      · have hflt := hpre_lt f hfp
        have hfw : word hF f = word h f := hFpre f hfp
        have hffr : isfree h f = true := by
          rw [isfree] at hffree ⊢
          rw [hfw] at hffree
          exact hffree
        have hfbl : f ∈ bl := by rw [hdecomp]; simp [hfp]
        have hbnd := tiles_bounds h h.segment_start bl ht f hfbl
        have := hspan f hfbl hffr
        constructor <;> omega
      · rcases List.mem_cons.mp hfc with hfe | hfc2
        · subst hfe
          constructor <;> omega
        · have hfgt := hpost_gt f (hpost2sub f hfc2)
          have hfw : word hF f = word h f := hFpost2 f hfc2
          have hffr : isfree h f = true := by
            rw [isfree] at hffree ⊢
            rw [hfw] at hffree
            exact hffree
          have hfbl : f ∈ bl := by rw [hdecomp]; simp [hpost2sub f hfc2]
          have hbnd := tiles_bounds h h.segment_start bl ht f hfbl
          have := hspan f hfbl hffr
          constructor <;> omega
    · intro h0
      exact absurd rfl h0

/-!
## Byte-level facts about `memmove`
-/

theorem div_mod_helper {m w i r : Nat} (hi : i < r) :
    (m + 256 ^ r * w) / 256 ^ i % 256 = m / 256 ^ i % 256 := by
  have h2 : (256 : Nat) ^ r = 256 ^ i * 256 ^ (r - i) := by
    rw [← pow_add]
    congr 1
    omega
  have h3 : m + 256 ^ r * w = m + 256 ^ i * (256 ^ (r - i) * w) := by
    rw [h2]
    ring
  rw [h3, Nat.add_mul_div_left _ _ (by positivity)]
  have h4 : 256 ^ (r - i) * w = 256 * (256 ^ (r - i - 1) * w) := by
    have h5 : (256 : Nat) ^ (r - i) = 256 * 256 ^ (r - i - 1) := by
      rw [← pow_succ']
      congr 1
      omega
    rw [h5]
    ring
  rw [h4, Nat.add_mul_mod_self_left]

theorem blend_byte (a b r i : Nat) (hi : i < r) :
    (a % 256 ^ r + (b - b % 256 ^ r)) / 256 ^ i % 256 = a / 256 ^ i % 256 := by
  have h1 : b - b % 256 ^ r = 256 ^ r * (b / 256 ^ r) := by
    have := Nat.mod_add_div b (256 ^ r)
    omega
  have h5 : a = a % 256 ^ r + 256 ^ r * (a / 256 ^ r) := by
    have := Nat.mod_add_div a (256 ^ r)
    omega
  rw [h1, div_mod_helper hi]
  conv_rhs => rw [h5]
  rw [div_mod_helper hi]

theorem pow256_dvd_W {r : Nat} (hr : r ≤ 7) : 256 ^ r ∣ W := by
  have h1 : (256 : Nat) ^ r = 2 ^ (8 * r) := by
    rw [show (256 : Nat) = 2 ^ 8 from by norm_num, ← pow_mul]
  rw [h1, W]
  exact pow_dvd_pow 2 (by omega)

theorem blend_lt_W (a b r : Nat) (hr : r ≤ 7) (hb : b < W) :
    a % 256 ^ r + (b - b % 256 ^ r) < W := by
  have hk : (0 : Nat) < 256 ^ r := by positivity
  obtain ⟨s, hws⟩ := pow256_dvd_W hr
  have h1 : b - b % 256 ^ r = 256 ^ r * (b / 256 ^ r) := by
    have := Nat.mod_add_div b (256 ^ r)
    omega
  have h2 : b / 256 ^ r < s := by
    have hbs : b < 256 ^ r * s := by rw [← hws]; exact hb
    exact Nat.div_lt_of_lt_mul (by rw [Nat.mul_comm] at hbs ⊢; exact hbs)
  have h3 : 256 ^ r * (b / 256 ^ r) + 256 ^ r ≤ 256 ^ r * s := by
    calc 256 ^ r * (b / 256 ^ r) + 256 ^ r = 256 ^ r * (b / 256 ^ r + 1) := by ring
    _ ≤ 256 ^ r * s := Nat.mul_le_mul_left _ (by omega)
  have h4 : a % 256 ^ r < 256 ^ r := Nat.mod_lt _ hk
  rw [h1]
  rw [hws]
  omega

/-- Every byte of the copied prefix of a `memmove` target equals the
corresponding source byte. -/
theorem memmove_byte (h : Heap) (dst src cnt j : Nat) (hj : j < cnt) :
    byteAt (memmove h dst src cnt) dst j = byteAt h src j := by
  have hjq : j / 8 ≤ cnt / 8 := Nat.div_le_div_right (by omega)
  rcases Nat.lt_or_ge (j / 8) (cnt / 8) with hq | hq
  · -- full word
    have hcell : (memmove h dst src cnt).mem (dst + 8 * (j / 8)) =
        word h (src + (dst + 8 * (j / 8) - dst)) := by
      rw [memmove]
      simp only []
      rw [if_pos ⟨by omega, by omega, by omega⟩]
    rw [byteAt, byteAt, word, hcell]
    have hsub : dst + 8 * (j / 8) - dst = 8 * (j / 8) := by omega
    rw [hsub, Nat.mod_eq_of_lt (word_lt h _)]
  · -- blended final word
    have hqe : j / 8 = cnt / 8 := by omega
    have hrne : cnt % 8 ≠ 0 := by omega
    have hjr : j % 8 < cnt % 8 := by omega
    have hcell : (memmove h dst src cnt).mem (dst + 8 * (j / 8)) =
        word h (src + 8 * (cnt / 8)) % 256 ^ (cnt % 8) +
          (word h (dst + 8 * (cnt / 8)) - word h (dst + 8 * (cnt / 8)) % 256 ^ (cnt % 8)) := by
      rw [memmove]
      simp only []
      rw [if_neg (by omega), if_pos ⟨hrne, by omega⟩, hqe]
    rw [byteAt, byteAt, word, hcell]
    have hlt : word h (src + 8 * (cnt / 8)) % 256 ^ (cnt % 8) +
        (word h (dst + 8 * (cnt / 8)) - word h (dst + 8 * (cnt / 8)) % 256 ^ (cnt % 8)) < W :=
      blend_lt_W _ _ _ (by omega) (word_lt h _)
    rw [Nat.mod_eq_of_lt hlt, hqe]
    exact blend_byte _ _ _ _ hjr

/-- `memmove` leaves every cell outside `[dst, dst + roundup8 cnt)` alone. -/
theorem memmove_mem_eq (h : Heap) (dst src cnt a : Nat)
    (ha : a < dst ∨ dst + 8 * ((cnt + 7) / 8) ≤ a) :
    (memmove h dst src cnt).mem a = h.mem a := by
  rw [memmove]
  simp only []
  rw [if_neg, if_neg]
  · intro hand
    rcases Nat.eq_zero_or_pos (cnt % 8) with hr | hr
    · exact hand.1 hr
    · have : (cnt + 7) / 8 = cnt / 8 + 1 := by omega
      omega
  · intro hand
    have : 8 * (cnt / 8) ≤ 8 * ((cnt + 7) / 8) := by
      have : cnt / 8 ≤ (cnt + 7) / 8 := Nat.div_le_div_right (by omega)
      omega
    omega

/-!
## `myrealloc` path reductions
-/

theorem myrealloc_inplace_unfold (fuel : Nat) (h : Heap) (old_ptr new_size : Nat)
    (hnew : ¬ new_size = 0) (hold : ¬ old_ptr = 0)
    (hcond : isfree h (old_ptr + getsize h (old_ptr - HEADER_SIZE) - HEADER_SIZE) = true ∧
      slong (sub64 ((getsize h (old_ptr - HEADER_SIZE) +
        getsize h (old_ptr + getsize h (old_ptr - HEADER_SIZE) - HEADER_SIZE)) % W)
        new_size) > 32) :
    myrealloc fuel h old_ptr new_size =
      (updatelinkedlist fuel
        (placeheader
          (placeheader h (old_ptr - HEADER_SIZE + roundup new_size ALIGNMENT)
            (sub64 ((getsize h (old_ptr + getsize h (old_ptr - HEADER_SIZE) - HEADER_SIZE) +
              getsize h (old_ptr - HEADER_SIZE)) % W) (roundup new_size ALIGNMENT)) 0)
          (old_ptr - HEADER_SIZE) (roundup new_size ALIGNMENT) 1)).map
        (fun h3 => (h3, old_ptr)) := by
  rw [myrealloc]
  rw [if_neg (by tauto : ¬ (new_size = 0 ∧ old_ptr ≠ 0)), if_neg hold]
  simp only [if_pos hcond]

theorem myrealloc_fallback_unfold (fuel : Nat) (h h1 : Heap) (old_ptr new_size np : Nat)
    (hnew : ¬ new_size = 0) (hold : ¬ old_ptr = 0)
    (hcond : ¬ (isfree h (old_ptr + getsize h (old_ptr - HEADER_SIZE) - HEADER_SIZE) = true ∧
      slong (sub64 ((getsize h (old_ptr - HEADER_SIZE) +
        getsize h (old_ptr + getsize h (old_ptr - HEADER_SIZE) - HEADER_SIZE)) % W)
        new_size) > 32))
    (hmal : mymalloc fuel h new_size = some (h1, np)) :
    myrealloc fuel h old_ptr new_size =
      (myfree fuel
        (memmove h1 np old_ptr
          (if getsize h (old_ptr - HEADER_SIZE) > new_size then new_size
           else getsize h (old_ptr - HEADER_SIZE)))
        old_ptr).map
        (fun h3 => (h3, np)) := by
  rw [myrealloc]
  rw [if_neg (by tauto : ¬ (new_size = 0 ∧ old_ptr ≠ 0)), if_neg hold]
  simp only [if_neg hcond, hmal]

/-- Arithmetic core of the in-place condition: when both blocks are viable
and `old + neighbor − new_size` exceeds 32, the leftover after taking
`roundup new_size` bytes is itself at least one viable block. -/
theorem inplace_tail_ge (gsb gsn new : Nat) (hb24 : 24 ≤ gsb) (hn24 : 24 ≤ gsn)
    (hb8 : gsb % 8 = 0) (hn8 : gsn % 8 = 0) (h0 : 0 < new) (hW : new + 15 < W)
    (hcond : new + 32 < gsb + gsn) :
    roundup new ALIGNMENT + 24 ≤ gsb + gsn := by
  rw [roundup_eq new h0 hW]
  split <;> omega

/-!
## The validator
-/

theorem validate_heap_false_of_overuse (h : Heap) (hover : h.nused > h.segment_size) :
    validate_heap h = false := by
  simp [validate_heap, hover]

theorem validateLoop_true (h : Heap) (rest : List Nat) :
    ∀ (a i fuel : Nat), tilesTo h a (blockEnd h) rest = true → a % 8 = 0 →
    validateLoop fuel h a i = true := by
  induction rest with
  | nil =>
    intro a i fuel ht ha
    rw [tilesTo_nil] at ht
    rcases fuel with _ | fuel
    · rfl
    rw [validateLoop]
    rcases Nat.lt_or_ge i h.nused with hi | hi
    · rw [if_pos hi, if_neg (by omega), if_pos (by omega)]
    · rw [if_neg (by omega)]
  | cons b bs ih =>
    intro a i fuel ht ha
    rw [tilesTo_cons] at ht
    obtain ⟨-, h24, h8, hrest⟩ := ht
    rcases fuel with _ | fuel
    · rfl
    rw [validateLoop]
    rcases Nat.lt_or_ge i h.nused with hi | hi
    · rw [if_pos hi, if_neg (by omega)]
      have hlt : a < blockEnd h := by
        have := tiles_start_le_end h (a + getsize h a) bs hrest
        omega
      rw [if_neg (by omega), if_neg (by omega)]
      exact ih (a + getsize h a) (i + getsize h a + 2) fuel hrest (by omega)
    · rw [if_neg (by omega)]

theorem validate_heap_true_of_wf (h : Heap) (bl : List Nat)
    (hwf : WFb h bl = true) (hle : h.nused ≤ h.segment_size) :
    validate_heap h = true := by
  obtain ⟨hs, ha, he, ht⟩ := WFb_unpack h bl hwf
  rw [validate_heap, if_neg (by omega)]
  exact validateLoop_true h bl h.segment_start 0 (h.nused + 1) ht ha

theorem sub64_small (a b : Nat) (haW : a < W) (hbW : b < W) (hba : b ≤ a) :
    sub64 (a % W) b = a - b := by
  rw [sub64, Nat.mod_mod_of_dvd a (dvd_refl W), Nat.mod_eq_of_lt haW,
    Nat.mod_eq_of_lt hbW]
  have h2 : a + (W - b) = W + (a - b) := by omega
  rw [h2, Nat.add_mod_left, Nat.mod_eq_of_lt (by omega)]

/-- Master postcondition of the in-place path of `myrealloc`: the old block
and its free right neighbor are re-headered as an in-use front of `needed`
bytes plus a free tail, the same payload address is returned, no client data
is copied or moved, and `nused` is not touched. -/
theorem myrealloc_inplace_spec (h : Heap) (bl pre post : List Nat)
    (blk nxt new_size fuel : Nat)
    (hwf : WFb h bl = true)
    (hdecomp : bl = pre ++ blk :: nxt :: post)
    (hnfree : isfree h nxt = true)
    (hnew0 : 0 < new_size)
    (hnewW : new_size + 15 < W)
    (hcond : new_size + 32 < getsize h blk + getsize h nxt)
    (hfuel : bl.length + 2 < fuel) :
    ∃ h3, myrealloc fuel h (blk + 8) new_size = some (h3, blk + 8) ∧
      h3.segment_start = h.segment_start ∧ h3.segment_size = h.segment_size ∧
      h3.nused = h.nused ∧
      getsize h3 blk = roundup new_size ALIGNMENT ∧
      isfree h3 blk = false ∧
      getsize h3 (blk + roundup new_size ALIGNMENT) =
        getsize h blk + getsize h nxt - roundup new_size ALIGNMENT ∧
      isfree h3 (blk + roundup new_size ALIGNMENT) = true ∧
      WFb h3 (pre ++ blk :: (blk + roundup new_size ALIGNMENT) :: post) = true ∧
      LinkedB h3 (pre ++ blk :: (blk + roundup new_size ALIGNMENT) :: post) = true ∧
      (getsize h blk ≤ roundup new_size ALIGNMENT →
        ∀ a, blk < a → a < blk + getsize h blk → h3.mem a = h.mem a) := by
  obtain ⟨hs, ha, he, ht⟩ := WFb_unpack h bl hwf
  have hblkbl : blk ∈ bl := by rw [hdecomp]; simp
  have hnxtbl : nxt ∈ bl := by rw [hdecomp]; simp
  have hblkbnd := tiles_bounds h h.segment_start bl ht blk hblkbl
  have hnxtbnd := tiles_bounds h h.segment_start bl ht nxt hnxtbl
  have htapp : tilesTo h h.segment_start blk pre = true ∧
      tilesTo h blk (blockEnd h) (blk :: nxt :: post) = true := by
    have h0 := ht
    rw [hdecomp, tilesB] at h0
    exact (tilesTo_append h pre (nxt :: post) h.segment_start (blockEnd h) blk).mp h0
  have hmid := htapp.2
  rw [tilesTo_cons] at hmid
  obtain ⟨-, hb24, hb8, hmid2⟩ := hmid
  have hnxteq : nxt = blk + getsize h blk := ((tilesTo_cons h _ _ nxt post).mp hmid2).1
  rw [tilesTo_cons] at hmid2
  obtain ⟨-, -, -, hpostt⟩ := hmid2
  rw [← hnxteq] at hpostt
  have hn24 : 24 ≤ getsize h nxt := hnxtbnd.2.2.1
  have hn8 : getsize h nxt % 8 = 0 := hnxtbnd.2.2.2
  have hneed24 : 24 ≤ roundup new_size ALIGNMENT := roundup_ge_24 new_size hnew0 hnewW
  have hneed8 : roundup new_size ALIGNMENT % 8 = 0 := roundup_mod_8 new_size hnew0 hnewW
  have htail24 : roundup new_size ALIGNMENT + 24 ≤ getsize h blk + getsize h nxt :=
    inplace_tail_ge (getsize h blk) (getsize h nxt) new_size hb24 hn24 hb8 hn8
      hnew0 hnewW hcond
  have hsum63 : getsize h blk + getsize h nxt < 2 ^ 63 := by
    have h1 := hnxtbnd.2.1
    omega
  have hWlarge : (2 : Nat) ^ 63 < W := by norm_num [W]
  have hdb := tiles_decomp_bounds h h.segment_start pre (nxt :: post) blk
    (by rw [← hdecomp]; exact ht)
  have hpre_lt : ∀ p ∈ pre, p + getsize h p ≤ blk ∧ 24 ≤ getsize h p := by
    intro p hp
    refine ⟨hdb.1 p hp, ?_⟩
    exact (tiles_bounds h h.segment_start bl ht p (by rw [hdecomp]; simp [hp])).2.2.1
  have hpost_gt : ∀ c ∈ post, blk + getsize h blk + getsize h nxt ≤ c := by
    intro c hc
    have := (tilesTo_bounds h _ _ post hpostt c hc).1
    omega
  -- the address computations of the source
  have hq8 : blk + 8 - HEADER_SIZE = blk := by simp [HEADER_SIZE]
  have hnb : blk + 8 + getsize h blk - HEADER_SIZE = nxt := by
    simp only [HEADER_SIZE]
    omega
  -- the branch condition evaluates as plain arithmetic
  have hXlt : getsize h blk + getsize h nxt < W := by omega
  have hnewlt : new_size < W := by omega
  have hsub : sub64 ((getsize h blk + getsize h nxt) % W) new_size =
      getsize h blk + getsize h nxt - new_size :=
    sub64_small _ _ hXlt hnewlt (by omega)
  have hslong : slong (getsize h blk + getsize h nxt - new_size) =
      ((getsize h blk + getsize h nxt - new_size : Nat) : Int) := by
    rw [slong, Nat.mod_eq_of_lt (by omega : getsize h blk + getsize h nxt - new_size < W),
      if_pos (by omega : getsize h blk + getsize h nxt - new_size < 2 ^ 63)]
    exact Int.emod_eq_of_lt (by positivity)
      (by exact_mod_cast (by omega : getsize h blk + getsize h nxt - new_size < W))
  have hcond2 : isfree h (blk + 8 + getsize h (blk + 8 - HEADER_SIZE) - HEADER_SIZE) = true ∧
      slong (sub64 ((getsize h (blk + 8 - HEADER_SIZE) +
        getsize h (blk + 8 + getsize h (blk + 8 - HEADER_SIZE) - HEADER_SIZE)) % W)
        new_size) > 32 := by
    rw [hq8, hnb, hsub, hslong]
    refine ⟨hnfree, ?_⟩
    have : (32 : Int) < ((getsize h blk + getsize h nxt - new_size : Nat) : Int) := by
      exact_mod_cast (by omega : 32 < getsize h blk + getsize h nxt - new_size)
    omega
  have hunfold := myrealloc_inplace_unfold fuel h (blk + 8) new_size
    (by omega) (by omega) hcond2
  rw [hq8, hnb] at hunfold
  have hsub2 : sub64 ((getsize h nxt + getsize h blk) % W) (roundup new_size ALIGNMENT) =
      getsize h blk + getsize h nxt - roundup new_size ALIGNMENT := by
    have := sub64_small (getsize h nxt + getsize h blk) (roundup new_size ALIGNMENT)
      (by omega) (by omega) (by omega)
    rw [this]
    omega
  rw [hsub2] at hunfold
  -- the two header writes
  set needed := roundup new_size ALIGNMENT with hneedDef
  set tail := getsize h blk + getsize h nxt - needed with htailDef
  set h1 := placeheader (placeheader h (blk + needed) tail 0) blk needed 1 with hh1
  have hneedW : needed + 1 < W := by omega
  have htailW : tail < W := by omega
  have htail8 : tail % 8 = 0 := by omega
  have hw1blk : word h1 blk = needed + 1 := by
    rw [hh1, word_placeheader_self_used _ _ _ (by omega) hneedW]
  have hw1tail : word h1 (blk + needed) = tail := by
    rw [hh1, word_placeheader_ne _ _ _ _ _ (by omega),
      word_placeheader_self_free _ _ _ htailW]
  have hg1blk : getsize h1 blk = needed := by
    simp [getsize, hw1blk]
    omega
  have hf1blk : isfree h1 blk = false := by
    simp [isfree, hw1blk]
    omega
  have hg1tail : getsize h1 (blk + needed) = tail := by
    simp [getsize, hw1tail]
    omega
  have hf1tail : isfree h1 (blk + needed) = true := by
    simp [isfree, hw1tail]
    omega
  have h1memx : ∀ x, x ≠ blk → x ≠ blk + needed → h1.mem x = h.mem x := by
    intro x hx1 hx2
    rw [hh1]
    simp [placeheader, writeWord, hx1, hx2]
  have h1word : ∀ x, x ≠ blk → x ≠ blk + needed → word h1 x = word h x := by
    intro x hx1 hx2
    rw [word, word, h1memx x hx1 hx2]
  have hprew : ∀ p ∈ pre, word h1 p = word h p := by
    intro p hp
    have := hpre_lt p hp
    exact h1word p (by omega) (by omega)
  have hpostw : ∀ c ∈ post, word h1 c = word h c := by
    intro c hc
    have := hpost_gt c hc
    exact h1word c (by omega) (by omega)
  set bl2 := pre ++ blk :: (blk + needed) :: post with hbl2
  have hend1 : blockEnd h1 = blockEnd h := rfl
  have ht1 : tilesB h1 h.segment_start bl2 = true := by
    rw [hbl2, tilesB, hend1, tilesTo_append]
    constructor
    · rw [tilesTo_congr h h1 h.segment_start blk pre
        (fun p hp => by simp [getsize, hprew p hp])]
      exact htapp.1
    · rw [tilesTo_cons]
      refine ⟨rfl, by rw [hg1blk]; omega, by rw [hg1blk]; omega, ?_⟩
      rw [hg1blk, tilesTo_cons]
      refine ⟨rfl, by rw [hg1tail]; omega, by rw [hg1tail]; omega, ?_⟩
      rw [hg1tail]
      have hstart : blk + needed + tail = nxt + getsize h nxt := by
        omega
      rw [hstart, tilesTo_congr h h1 _ _ post
        (fun c hc => by simp [getsize, hpostw c hc])]
      exact hpostt
  have hwf1 : WFb h1 bl2 = true := by
    simp only [WFb, Bool.and_eq_true, decide_eq_true_eq]
    exact ⟨⟨⟨hs, ha⟩, he⟩, ht1⟩
  have hlen2 : bl2.length < fuel := by
    rw [hbl2]
    rw [hdecomp] at hfuel
    simp at hfuel ⊢
    omega
  have hupd : updatelinkedlist fuel h1 = some (processFrees h1 0 (freelist h1 bl2)) :=
    updatelinkedlist_eq h1 bl2 fuel hwf1 hlen2
  have hblkbl2 : blk ∈ bl2 := by rw [hbl2]; simp
  have htailbl2 : blk + needed ∈ bl2 := by rw [hbl2]; simp
  have ht1s : tilesB h1 h1.segment_start bl2 = true := ht1
  have hwords := updll_word_blocks h1 bl2 ht1s
  refine ⟨processFrees h1 0 (freelist h1 bl2), ?_, ?_, ?_, ?_, ?_, ?_, ?_, ?_, ?_, ?_, ?_⟩
  · rw [hunfold, hupd]
    rfl
  · rw [processFrees_start]
    rfl
  · rw [processFrees_size]
    rfl
  · rw [processFrees_nused]
    rfl
  · rw [getsize, hwords blk hblkbl2]
    rw [← getsize, hg1blk]
  · rw [isfree, hwords blk hblkbl2, ← isfree, hf1blk]
  · rw [getsize, hwords _ htailbl2]
    rw [← getsize, hg1tail]
  · rw [isfree, hwords _ htailbl2, ← isfree, hf1tail]
  · exact updll_wf h1 bl2 hwf1
  · exact updll_linked h1 bl2 hwf1
  · intro hgrow a ha1 ha2
    rw [processFrees_mem_eq, h1memx a (by omega) (by omega)]
    · intro f hf
      have hfbl2 : f ∈ bl2 := (freelist_mem h1 bl2 f hf).1
      have hffree : isfree h1 f = true := (freelist_mem h1 bl2 f hf).2
      rw [hbl2] at hfbl2
      rcases List.mem_append.mp hfbl2 with hfp | hfc
      · have := hpre_lt f hfp
        constructor <;> omega
      · rcases List.mem_cons.mp hfc with hfe | hfc2
        · exfalso
          rw [hfe, hf1blk] at hffree
          exact absurd hffree (by simp)
        · rcases List.mem_cons.mp hfc2 with hfe | hfc3
          · rw [hfe]
            constructor <;> omega
          · have := hpost_gt f hfc3
            constructor <;> omega
    · intro h0
      exact absurd rfl h0

/-- Master lemma for the fallback path of `myrealloc`: when the in-place
test fails and the free-list scan finds a fitting block, resize allocates
it, copies the payload prefix, releases the old block, and leaves a
well-formed, correctly linked heap. -/
theorem myrealloc_fallback_spec (h : Heap) (bl preN postN : List Nat)
    (blkO blkN new_size fuel : Nat)
    (hwf : WFb h bl = true) (hlink : LinkedB h bl = true)
    (hfuel : bl.length + 3 < fuel)
    (hObl : blkO ∈ bl)
    (hOused : isfree h blkO = false)
    (hnew0 : ¬ new_size = 0)
    (hnewW : new_size + 15 < W)
    (hcond : ¬ (isfree h (blkO + getsize h blkO) = true ∧
      slong (sub64 ((getsize h blkO + getsize h (blkO + getsize h blkO)) % W)
        new_size) > 32))
    (hg1 : ¬ (roundup new_size ALIGNMENT + h.nused) % W > h.segment_size)
    (hg2 : ¬ roundup new_size ALIGNMENT > MAX_REQUEST_SIZE)
    (hfind : (freelist h bl).find?
      (fun g => decide (roundup new_size ALIGNMENT ≤ getsize h g)) = some blkN)
    (hdecN : bl = preN ++ blkN :: postN) :
    ∃ h3 bl3,
      myrealloc fuel h (blkO + HEADER_SIZE) new_size =
        some (h3, blkN + HEADER_SIZE) ∧
      blkN + HEADER_SIZE ≠ blkO + HEADER_SIZE ∧
      isfree h3 blkO = true ∧
      isfree h3 blkN = false ∧
      (∀ j, j < min (getsize h blkO - HEADER_SIZE) new_size →
        byteAt h3 (blkN + HEADER_SIZE) j = byteAt h (blkO + HEADER_SIZE) j) ∧
      WFb h3 bl3 = true ∧ LinkedB h3 bl3 = true := by
  simp only [HEADER_SIZE]
  obtain ⟨hs, ha, he, ht⟩ := WFb_unpack h bl hwf
  have hnz : 0 < new_size := Nat.pos_of_ne_zero hnew0
  set needed := roundup new_size ALIGNMENT with hneeded
  have hN24 : 24 ≤ needed := roundup_ge_24 new_size hnz hnewW
  have hN8 : needed % 8 = 0 := roundup_mod_8 new_size hnz hnewW
  have hNadd : new_size + 8 ≤ needed := roundup_ge_add_8 new_size hnz hnewW
  have hNfl : blkN ∈ freelist h bl := List.mem_of_find?_eq_some hfind
  have hNbl : blkN ∈ bl := (freelist_mem h bl blkN hNfl).1
  have hNfree : isfree h blkN = true := (freelist_mem h bl blkN hNfl).2
  have hfit : needed ≤ getsize h blkN := by
    have := List.find?_some hfind
    simpa [hneeded] using this
  have hON : blkO ≠ blkN := by
    intro hEq
    rw [hEq, hNfree] at hOused
    simp at hOused
  have hObnd := tiles_bounds h h.segment_start bl ht blkO hObl
  have hNbnd := tiles_bounds h h.segment_start bl ht blkN hNbl
  obtain ⟨h2, hmal, hst2, hsz2, hNused2, hmem2, hsp, hns⟩ :=
    mymalloc_spec h bl preN postN new_size fuel blkN hwf hlink (by omega)
      hnew0 hg1 hg2 hN24 hN8 hfind hdecN
  -- the old block's header is untouched by the allocation
  have hOcell : h2.mem blkO = h.mem blkO := by
    apply hmem2
    intro b hb hbfree
    have hbO : b ≠ blkO := by
      intro hEq
      rw [hEq, hOused] at hbfree
      simp at hbfree
    rcases tiles_disjoint h h.segment_start bl ht b hb blkO hObl hbO with hd | hd
    · right
      omega
    · have := (tiles_bounds h h.segment_start bl ht blkO hObl).2.2.1
      left
      omega
  have hOword2 : word h2 blkO = word h blkO := by
    rw [word, word, hOcell]
  have hOgs2 : getsize h2 blkO = getsize h blkO := by
    simp [getsize, hOword2]
  have hOfree2 : isfree h2 blkO = false := by
    simpa [isfree, hOword2] using hOused
  -- the block list of the post-allocation heap
  have hmain : ∃ bl2, WFb h2 bl2 = true ∧ blkO ∈ bl2 ∧ blkN ∈ bl2 ∧
      needed ≤ getsize h2 blkN ∧ bl2.length ≤ bl.length + 1 := by
    rcases Nat.lt_or_ge (getsize h blkN - needed) 40 with hrem | hrem
    · obtain ⟨hw2, hl2, hgsN2eq, hnu⟩ := hns hrem
      refine ⟨bl, hw2, hObl, hNbl, ?_, by omega⟩
      rw [hgsN2eq]
      exact hfit
    · obtain ⟨hw2, hl2, hgsN2eq, hgsR, hfreeR, hnu⟩ := hsp hrem
      refine ⟨preN ++ blkN :: (blkN + needed) :: postN, hw2, ?_, by simp, ?_, ?_⟩
      · rw [hdecN] at hObl
        rcases List.mem_append.mp hObl with h1 | h1
        · exact List.mem_append.mpr (Or.inl h1)
        · rcases List.mem_cons.mp h1 with h1 | h1
          · exact absurd h1 hON
          · refine List.mem_append.mpr (Or.inr ?_)
            simp [h1]
      · rw [hgsN2eq]
      · rw [hdecN]
        simp
        omega
  obtain ⟨bl2, hw2, hOin2, hNin2, hgsN2, hlen2⟩ := hmain
  obtain ⟨hs2, ha2, he2, ht2⟩ := WFb_unpack h2 bl2 hw2
  -- the copy
  set cnt := if getsize h blkO > new_size then new_size else getsize h blkO
    with hcnt
  have hcnt_le_new : cnt ≤ new_size := by
    rw [hcnt]
    split <;> omega
  have hcnt_le_old : cnt ≤ getsize h blkO := by
    rw [hcnt]
    split <;> omega
  have hceil : 8 * ((cnt + 7) / 8) + 8 ≤ needed := by omega
  set h2m := memmove h2 (blkN + 8) (blkO + 8) cnt with hh2m
  have hword2m : ∀ b ∈ bl2, word h2m b = word h2 b := by
    intro b hb
    have hside : b < blkN + 8 ∨ blkN + 8 + 8 * ((cnt + 7) / 8) ≤ b := by
      rcases Decidable.em (b = blkN) with hbe | hbe
      · subst hbe
        left
        omega
      · rcases tiles_disjoint h2 h2.segment_start bl2 ht2 b hb blkN hNin2 hbe
          with hd | hd
        · have := (tiles_bounds h2 h2.segment_start bl2 ht2 b hb).2.2.1
          left
          omega
        · right
          omega
    rw [word, word, hh2m, memmove_mem_eq h2 (blkN + 8) (blkO + 8) cnt b hside]
  have hgs2m : ∀ b ∈ bl2, getsize h2m b = getsize h2 b := by
    intro b hb
    simp [getsize, hword2m b hb]
  have hfree2m : ∀ b ∈ bl2, isfree h2m b = isfree h2 b := by
    intro b hb
    simp [isfree, hword2m b hb]
  have hend2m : blockEnd h2m = blockEnd h2 := rfl
  have hstart2m : h2m.segment_start = h2.segment_start := rfl
  have ht2m : tilesB h2m h2m.segment_start bl2 = true := by
    rw [hstart2m]
    exact tiles_update_sizes h2 h2m h2.segment_start bl2 ht2
      (fun b hb => hgs2m b hb) hend2m
  have hw2m : WFb h2m bl2 = true := by
    simp only [WFb, Bool.and_eq_true, decide_eq_true_eq]
    rw [hstart2m] at ht2m
    exact ⟨⟨⟨hs2, ha2⟩, he2⟩, by rw [hstart2m]; exact ht2m⟩
  -- release of the old block
  obtain ⟨pre2, post2, hdec2⟩ := List.append_of_mem hOin2
  obtain ⟨h3, hfres, hst3, hsz3, hnu3, hfr3, hgs3, hw3, hl3, hpre3, hmem3⟩ :=
    myfree_spec h2m bl2 pre2 post2 blkO fuel hw2m hdec2 (by omega)
  -- compose the result
  have hq : blkO + 8 - HEADER_SIZE = blkO := by
    simp [HEADER_SIZE]
  have hcond2 : ¬ (isfree h (blkO + 8 + getsize h (blkO + 8 - HEADER_SIZE) -
        HEADER_SIZE) = true ∧
      slong (sub64 ((getsize h (blkO + 8 - HEADER_SIZE) +
        getsize h (blkO + 8 + getsize h (blkO + 8 - HEADER_SIZE) -
          HEADER_SIZE)) % W) new_size) > 32) := by
    rw [hq]
    have hq2 : blkO + 8 + getsize h blkO - HEADER_SIZE = blkO + getsize h blkO := by
      simp only [HEADER_SIZE]
      omega
    rw [hq2]
    exact hcond
  have hunf := myrealloc_fallback_unfold fuel h h2 (blkO + 8) new_size (blkN + 8)
    hnew0 (by omega) hcond2 hmal
  have hresult : myrealloc fuel h (blkO + 8) new_size = some (h3, blkN + 8) := by
    rw [hunf, hq, ← hcnt, ← hh2m, hfres]
    rfl
  -- the new block stays in use through the release
  have hNcell3 : h3.mem blkN = h2m.mem blkN := by
    apply hmem3
    · intro b hb hbfree
      have hbN : b ≠ blkN := by
        intro hEq
        rw [hEq, hfree2m blkN hNin2, hNused2] at hbfree
        simp at hbfree
      rcases tiles_disjoint h2m h2m.segment_start bl2 ht2m b hb blkN hNin2 hbN
        with hd | hd
      · have := (tiles_bounds h2m h2m.segment_start bl2 ht2m b hb).2.2.1
        right
        omega
      · have := (tiles_bounds h2m h2m.segment_start bl2 ht2m blkN hNin2).2.2.1
        left
        omega
    · rcases tiles_disjoint h2m h2m.segment_start bl2 ht2m blkO hOin2 blkN hNin2
        hON with hd | hd
      · right
        omega
      · have := (tiles_bounds h2m h2m.segment_start bl2 ht2m blkN hNin2).2.2.1
        left
        omega
  have hNfree3 : isfree h3 blkN = false := by
    have h1 := hfree2m blkN hNin2
    rw [hNused2] at h1
    simp only [isfree, word, hNcell3]
    simpa [isfree, word] using h1
  -- the byte-prefix of the new payload
  have hgsNm := hgs2m blkN hNin2
  have hgsOm := hgs2m blkO hOin2
  have hbyte : ∀ j, j < min (getsize h blkO - 8) new_size →
      byteAt h3 (blkN + 8) j = byteAt h (blkO + 8) j := by
    intro j hj
    have hjcnt : j < cnt := by
      rw [hcnt]
      split <;> omega
    have hcellN : blkN + 8 + 8 * (j / 8) < blkN + getsize h2m blkN := by omega
    have hmemcell : h3.mem (blkN + 8 + 8 * (j / 8)) =
        h2m.mem (blkN + 8 + 8 * (j / 8)) := by
      apply hmem3
      · intro b hb hbfree
        have hbN : b ≠ blkN := by
          intro hEq
          rw [hEq, hfree2m blkN hNin2, hNused2] at hbfree
          simp at hbfree
        rcases tiles_disjoint h2m h2m.segment_start bl2 ht2m b hb blkN hNin2 hbN
          with hd | hd
        · right
          omega
        · left
          omega
      · rcases tiles_disjoint h2m h2m.segment_start bl2 ht2m blkO hOin2 blkN
          hNin2 hON with hd | hd
        · right
          omega
        · left
          omega
    have hA : byteAt h3 (blkN + 8) j = byteAt h2m (blkN + 8) j := by
      rw [byteAt, byteAt, word, word, hmemcell]
    have hB : byteAt h2m (blkN + 8) j = byteAt h2 (blkO + 8) j := by
      rw [hh2m]
      exact memmove_byte h2 (blkN + 8) (blkO + 8) cnt j hjcnt
    have hcellO : blkO < blkO + 8 + 8 * (j / 8) ∧
        blkO + 8 + 8 * (j / 8) < blkO + getsize h blkO := by omega
    have hmemO : h2.mem (blkO + 8 + 8 * (j / 8)) =
        h.mem (blkO + 8 + 8 * (j / 8)) := by
      apply hmem2
      intro b hb hbfree
      have hbO : b ≠ blkO := by
        intro hEq
        rw [hEq, hOused] at hbfree
        simp at hbfree
      rcases tiles_disjoint h h.segment_start bl ht b hb blkO hObl hbO
        with hd | hd
      · right
        omega
      · left
        omega
    have hC : byteAt h2 (blkO + 8) j = byteAt h (blkO + 8) j := by
      rw [byteAt, byteAt, word, word, hmemO]
    rw [hA, hB, hC]
  exact ⟨h3, _, hresult, by omega, hfr3, hNfree3, hbyte, hw3, hl3⟩

/-!
## C1
-/

/-- C1: the in-use byte counter is NOT maintained as the claim states: the
code never decrements `nused` on release (`myfree` touches no counter), so
after `init(64)`, `p := allocate(16)`, `release(p)`, `allocate(32)` the
counter reads 88 although the only in-use block has size 64 and the arena
is 64 bytes long — `nused` exceeds the arena length and differs from the
in-use sum, and the allocator's own `validate_heap` rejects the heap.  The
claim states the code's documented intent; the code is at fault. -/
theorem C1_nused_counter_code_bug :
    mymalloc 100 hInit64 16 = some (hTrace1, 16) ∧
    myfree 100 hTrace1 16 = some hTrace2 ∧
    mymalloc 100 hTrace2 32 = some (hTrace3, 16) ∧
    hTrace1.nused = 24 ∧
    hTrace2.nused = 24 ∧
    hTrace3.nused = 88 ∧
    hTrace3.segment_size = 64 ∧
    isfree hTrace3 8 = false ∧
    getsize hTrace3 8 = 64 ∧
    blockEnd hTrace3 = 72 ∧
    hTrace3.nused > hTrace3.segment_size ∧
    hTrace3.nused ≠ getsize hTrace3 8 ∧
    validate_heap hTrace3 = false :=
  ⟨rfl, rfl, rfl, rfl, rfl, rfl, rfl, rfl, rfl, rfl, by decide, by decide, by decide⟩

/-!
## C2
-/

/-- C2 counterexample: on a fresh 56-byte arena, `allocate(16)` needs 24
bytes and the winning free block has 56, leaving a remainder of 32 — at
least the claimed minimum viable free-block size of 24 (header plus two
link words) — yet the code does not split: the whole 56-byte block becomes
in-use (the code's split threshold is 40, not 24). -/
theorem C2_split_threshold_counterexample :
    roundup 16 ALIGNMENT = 24 ∧
    getsize hInit56 8 = 56 ∧
    24 ≤ getsize hInit56 8 - roundup 16 ALIGNMENT ∧
    (mymalloc 100 hInit56 16).map (fun r => (r.2, getsize r.1 8, r.1.nused)) =
      some (16, 56, 56) ∧
    (mymalloc 100 hInit56 16).map (fun r => isfree r.1 8) = some false ∧
    ¬ (mymalloc 100 hInit56 16).map (fun r => getsize r.1 8) = some 24 := by
  refine ⟨by decide, by decide, by decide, rfl, rfl, by decide⟩

/-!
## C3
-/

/-- C3: operations are NOT atomic with respect to failure: on `hOneBlock`
(one in-use 24-byte block filling the arena, right neighbor past the end
in-use-looking), `resize(payload, 100)` cannot grow in place, its fallback
`allocate` fails (returns null), and the code then copies through the null
pointer (the model shows cell 0 receiving the old payload word 77) and
releases the old block anyway: the call returns null with the arena
mutated and the old block no longer in use.  The spec itself calls this
path a defect, so the claim is right and the code wrong. -/
theorem C3_failed_resize_not_atomic_code_bug :
    (myrealloc 100 hOneBlock 1008 100).map (fun r => r.2) = some 0 ∧
    (myrealloc 100 hOneBlock 1008 100).map (fun r => isfree r.1 1000) = some true ∧
    (myrealloc 100 hOneBlock 1008 100).map (fun r => word r.1 0) = some 77 ∧
    word hOneBlock 0 = 0 ∧
    isfree hOneBlock 1000 = false :=
  ⟨rfl, rfl, rfl, by decide, by decide⟩

/-!
## C4
-/

/-- C4 counterexample: with three adjacent in-use blocks A at 8, B at 32,
C at 56 (24 bytes each), releasing B and then C leaves TWO free blocks of
24 bytes each — not a single free block spanning B and C's extent (48
bytes) — because coalescing only looks rightward and releasing C never
merges into its left neighbor B.  (Releasing C first and then B does
produce the single 48-byte block.) -/
theorem C4_release_order_counterexample :
    myfree 100 hABC 40 = some hABC_freeB ∧
    myfree 100 hABC_freeB 64 = some hABC_freeBC ∧
    isfree hABC_freeBC 32 = true ∧
    isfree hABC_freeBC 56 = true ∧
    getsize hABC_freeBC 32 = 24 ∧
    getsize hABC_freeBC 56 = 24 ∧
    ¬ getsize hABC_freeBC 32 = 48 ∧
    (myfree 100 hABC_freeC 40).map (fun r => getsize r 32) = some 48 :=
  ⟨rfl, rfl, by decide, by decide, by decide, by decide, by decide, rfl⟩

/-!
## C5
-/

/-- C5 counterexample: on `hPair` (in-use 24-byte block at 8, free 32-byte
neighbor at 32), `resize(16, 24)` has a free right neighbor and absorbing
it at `needed = 32` bytes leaves a 24-byte remainder — a viable free block
by the claim's own measure — yet the code compares `old + neighbor − 
new_size = 32` against the strict bound 32, takes the fallback path, and
returns the different address 40 after copying. -/
theorem C5_inplace_condition_counterexample :
    isfree hPair 32 = true ∧
    roundup 24 ALIGNMENT = 32 ∧
    getsize hPair 8 + getsize hPair 32 - roundup 24 ALIGNMENT = 24 ∧
    (myrealloc 100 hPair 16 24).map (fun r => r.2) = some 40 ∧
    ¬ (myrealloc 100 hPair 16 24).map (fun r => r.2) = some 16 :=
  ⟨by decide, by decide, by decide, rfl, by decide⟩

/-!
## C7
-/

/-- C7 counterexample: on `hOvershoot` the walk from the base reads a block
of 24 bytes inside a 16-byte arena — the walk does not terminate at the
arena end (it lands at 32, past 24) — yet `validate_heap` returns `true`
(its walk is bounded by an `nused`-derived counter and accepts any cursor
at or past the end). -/
theorem C7_validate_overshoot_counterexample :
    validate_heap hOvershoot = true ∧
    hOvershoot.nused ≤ hOvershoot.segment_size ∧
    blockEnd hOvershoot = 24 ∧
    hOvershoot.segment_start + getsize hOvershoot hOvershoot.segment_start = 32 ∧
    ¬ hOvershoot.segment_start + getsize hOvershoot hOvershoot.segment_start =
      blockEnd hOvershoot := by
  refine ⟨by decide, by decide, by decide, by decide, by decide⟩

/-- C7 amended: `validate_heap` returns false whenever `nused` exceeds the
arena length, and it returns true on every well-formed heap with
`nused ≤ length`; the boundary and positivity checks of the claim are not
enforced (see the counterexample: a block crossing the arena end is
accepted). -/
theorem C7_validate_behavior (h : Heap) (bl : List Nat) :
    (h.nused > h.segment_size → validate_heap h = false) ∧
    (WFb h bl = true → h.nused ≤ h.segment_size → validate_heap h = true) :=
  ⟨validate_heap_false_of_overuse h, validate_heap_true_of_wf h bl⟩

/-- Witness for C7: the overuse branch fires on `hTrace3` (nused 88 > 64)
and the well-formed branch fires on the fresh 64-byte arena. -/
theorem C7_validate_behavior_witness :
    (hTrace3.nused > hTrace3.segment_size ∧ validate_heap hTrace3 = false) ∧
    (WFb hInit64 [8] = true ∧ hInit64.nused ≤ hInit64.segment_size ∧
      validate_heap hInit64 = true) :=
  ⟨⟨by decide, (C7_validate_behavior hTrace3 []).1 (by decide)⟩,
   ⟨by decide, by decide,
    (C7_validate_behavior hInit64 [8]).2 (by decide) (by decide)⟩⟩

/-!
## C9 counterexample
-/

/-- C9 counterexample: `myinit` never runs the list maintainer, so right
after `init` the single free block's link words hold whatever the arena
held before — here the garbage word 6 — and the free-list invariant fails
(`prevptr` of the only free block is 6, not null). -/
theorem C9_init_stale_links_counterexample :
    (myinit 8 32 garbageMem).2 = true ∧
    WFb hGarbageInit [8] = true ∧
    isfree hGarbageInit 8 = true ∧
    getprevptr hGarbageInit 8 = 6 ∧
    LinkedB hGarbageInit [8] = false := by
  refine ⟨rfl, by decide, by decide, by decide, by decide⟩

/-!
## C10
-/

/-- C10 counterexample: `init` with the odd length 7 still returns true and
stores the raw word 7, but that header decodes as an IN-USE block of size
6 — not a free block whose size equals the full arena length. -/
theorem C10_odd_length_counterexample :
    (myinit 8 7 zeroMem).2 = true ∧
    word (myinit 8 7 zeroMem).1 8 = 7 ∧
    isfree (myinit 8 7 zeroMem).1 8 = false ∧
    getsize (myinit 8 7 zeroMem).1 8 = 6 ∧
    ¬ (isfree (myinit 8 7 zeroMem).1 8 = true ∧
       getsize (myinit 8 7 zeroMem).1 8 = 7) := by
  refine ⟨rfl, by decide, by decide, by decide, by decide⟩

/-- C10 amended: `init` accepts every arena unconditionally — it returns
true, records the segment, zeroes `nused`, and stores the raw length as the
single header word; that header is a free block spanning the whole arena
exactly when the length is even (and below `2 ^ 64`), the low bit otherwise
making it decode as in-use with size `length − 1`. -/
theorem C10_init_unconditional (base len : Nat) (mem0 : Nat → Nat) :
    (myinit base len mem0).2 = true ∧
    (myinit base len mem0).1.nused = 0 ∧
    (myinit base len mem0).1.segment_start = base ∧
    (myinit base len mem0).1.segment_size = len ∧
    word (myinit base len mem0).1 base = len % W ∧
    (len % 2 = 0 → len < W →
      isfree (myinit base len mem0).1 base = true ∧
      getsize (myinit base len mem0).1 base = len) := by
  refine ⟨rfl, rfl, rfl, rfl, ?_, ?_⟩
  · rw [myinit]
    simp only []
    rw [placeheader, Nat.or_zero, word_writeWord_self]
  · intro hev hlt
    have hw : word (myinit base len mem0).1 base = len := by
      rw [myinit]
      simp only []
      rw [placeheader, Nat.or_zero, word_writeWord_self, Nat.mod_eq_of_lt hlt]
    constructor
    · simp [isfree, hw]
      omega
    · simp [getsize, hw]
      omega

/-- Witness for C10: instantiated on the even 64-byte arena. -/
theorem C10_init_unconditional_witness :
    (64 % 2 = 0 ∧ 64 < W) ∧
    ((myinit 8 64 zeroMem).2 = true ∧
     (myinit 8 64 zeroMem).1.nused = 0 ∧
     (myinit 8 64 zeroMem).1.segment_start = 8 ∧
     (myinit 8 64 zeroMem).1.segment_size = 64 ∧
     word (myinit 8 64 zeroMem).1 8 = 64 % W ∧
     (64 % 2 = 0 → 64 < W →
       isfree (myinit 8 64 zeroMem).1 8 = true ∧
       getsize (myinit 8 64 zeroMem).1 8 = 64)) :=
  ⟨⟨by decide, by decide⟩, C10_init_unconditional 8 64 zeroMem⟩

/-- `find?` on a list sorted in nondecreasing order returns a least
satisfier. -/
theorem find?_min_of_sorted (l : List Nat) (p : Nat → Bool) (x : Nat)
    (hsort : l.Pairwise (fun a b => a ≤ b))
    (hfind : l.find? p = some x) :
    ∀ g ∈ l, p g = true → x ≤ g := by
  induction l with
  | nil => simp at hfind
  | cons c cs ih =>
    rcases hsort with _ | ⟨hcs, hsort2⟩
    intro g hg hpg
    rcases hp : p c with _ | _
    · rw [List.find?_cons_of_neg cs (by simp [hp])] at hfind
      rcases List.mem_cons.mp hg with hg1 | hg1
      · rw [hg1, hp] at hpg
        exact absurd hpg (by simp)
      · exact ih hsort2 hfind g hg1 hpg
    · rw [List.find?_cons_of_pos cs hp] at hfind
      have hx : x = c := by
        have := hfind
        simp at this
        omega
      subst hx
      rcases List.mem_cons.mp hg with hg1 | hg1
      · omega
      · exact hcs g hg1

/-!
## C2 amended
-/

/-- C2 amended: the split threshold is 40 bytes (header plus 32), not the
24-byte minimum viable free-block size the claim states.  When the winning
block's size minus `needed` is at least 40, the block is split exactly as
the claim describes — a free header encoding the remainder at
`block + needed`, the front `needed` bytes in-use; when the remainder is
below 40 (including the range 24–39 the original claim covers) the whole
block becomes in-use with no split. -/
theorem C2_split_threshold_is_40 (h : Heap) (bl pre post : List Nat)
    (req fuel blk : Nat)
    (hwf : WFb h bl = true) (hlink : LinkedB h bl = true)
    (hfuel : bl.length + 1 < fuel)
    (hreq0 : ¬ req = 0)
    (hg1 : ¬ (roundup req ALIGNMENT + h.nused) % W > h.segment_size)
    (hg2 : ¬ roundup req ALIGNMENT > MAX_REQUEST_SIZE)
    (hneed24 : 24 ≤ roundup req ALIGNMENT)
    (hneed8 : roundup req ALIGNMENT % 8 = 0)
    (hfind : (freelist h bl).find?
      (fun g => decide (roundup req ALIGNMENT ≤ getsize h g)) = some blk)
    (hdecomp : bl = pre ++ blk :: post) :
    ∃ h2,
      mymalloc fuel h req = some (h2, blk + HEADER_SIZE) ∧
      isfree h2 blk = false ∧
      (40 ≤ getsize h blk - roundup req ALIGNMENT →
        getsize h2 blk = roundup req ALIGNMENT ∧
        isfree h2 (blk + roundup req ALIGNMENT) = true ∧
        getsize h2 (blk + roundup req ALIGNMENT) =
          getsize h blk - roundup req ALIGNMENT ∧
        WFb h2 (pre ++ blk :: (blk + roundup req ALIGNMENT) :: post) = true) ∧
      (getsize h blk - roundup req ALIGNMENT < 40 →
        getsize h2 blk = getsize h blk ∧ WFb h2 bl = true) := by
  obtain ⟨h2, hres, -, -, hfree2, -, hsp, hns⟩ := mymalloc_spec h bl pre post
    req fuel blk hwf hlink hfuel hreq0 hg1 hg2 hneed24 hneed8 hfind hdecomp
  refine ⟨h2, hres, hfree2, ?_, ?_⟩
  · intro hge
    obtain ⟨hw2, -, hgs, hgr, hfr, -⟩ := hsp hge
    exact ⟨hgs, hfr, hgr, hw2⟩
  · intro hlt
    obtain ⟨hw2, -, hgs, -⟩ := hns hlt
    exact ⟨hgs, hw2⟩

/-- Witness for C2 amended: on the fresh 104-byte arena, `allocate(16)`
splits its 104-byte free block (remainder 80 ≥ 40). -/
theorem C2_split_threshold_is_40_witness :
    (WFb hInit104 [8] = true ∧ LinkedB hInit104 [8] = true ∧
      ([8] : List Nat).length + 1 < 100 ∧ ¬ (16 : Nat) = 0 ∧
      ¬ (roundup 16 ALIGNMENT + hInit104.nused) % W > hInit104.segment_size ∧
      ¬ roundup 16 ALIGNMENT > MAX_REQUEST_SIZE ∧
      24 ≤ roundup 16 ALIGNMENT ∧ roundup 16 ALIGNMENT % 8 = 0 ∧
      (freelist hInit104 [8]).find?
        (fun g => decide (roundup 16 ALIGNMENT ≤ getsize hInit104 g)) = some 8 ∧
      ([8] : List Nat) = [] ++ 8 :: []) ∧
    (∃ h2,
      mymalloc 100 hInit104 16 = some (h2, 8 + HEADER_SIZE) ∧
      isfree h2 8 = false ∧
      (40 ≤ getsize hInit104 8 - roundup 16 ALIGNMENT →
        getsize h2 8 = roundup 16 ALIGNMENT ∧
        isfree h2 (8 + roundup 16 ALIGNMENT) = true ∧
        getsize h2 (8 + roundup 16 ALIGNMENT) =
          getsize hInit104 8 - roundup 16 ALIGNMENT ∧
        WFb h2 ([] ++ 8 :: (8 + roundup 16 ALIGNMENT) :: []) = true) ∧
      (getsize hInit104 8 - roundup 16 ALIGNMENT < 40 →
        getsize h2 8 = getsize hInit104 8 ∧ WFb h2 [8] = true)) :=
  ⟨⟨by decide, by decide, by decide, by decide, by decide, by decide,
    by decide, by decide, by decide, rfl⟩,
   C2_split_threshold_is_40 hInit104 [8] [] [] 16 100 8 (by decide) (by decide)
     (by decide) (by decide) (by decide) (by decide) (by decide) (by decide)
     (by decide) rfl⟩

/-!
## C4 amended
-/

/-- C4 amended: release marks the block free with its size enlarged by
exactly the maximal run of immediately-following free blocks (rightward
coalescing only), leaving blocks to its left untouched; consequently for
three adjacent in-use blocks A, B, C it is releasing C and THEN B — not B
then C — that leaves a single free block spanning B and C's extent. -/
theorem C4_rightward_coalesce (h : Heap) (bl pre post : List Nat)
    (blk fuel : Nat)
    (hwf : WFb h bl = true)
    (hdecomp : bl = pre ++ blk :: post)
    (hfuel : bl.length + 1 < fuel) :
    ∃ h3,
      myfree fuel h (blk + HEADER_SIZE) = some h3 ∧
      h3.nused = h.nused ∧
      isfree h3 blk = true ∧
      getsize h3 blk = getsize h blk +
        ((post.takeWhile (fun g => isfree h g)).map (fun g => getsize h g)).sum ∧
      (∀ b ∈ pre, word h3 b = word h b) ∧
      WFb h3 (pre ++ blk :: post.dropWhile (fun g => isfree h g)) = true ∧
      LinkedB h3 (pre ++ blk :: post.dropWhile (fun g => isfree h g)) = true := by
  obtain ⟨h3, hres, -, -, hnu, hfr, hgs, hw3, hl3, hpre, -⟩ :=
    myfree_spec h bl pre post blk fuel hwf hdecomp hfuel
  exact ⟨h3, hres, hnu, hfr, hgs, hpre, hw3, hl3⟩

/-- Witness for C4 amended: on `hABC_freeC` (A, B in use, C free),
releasing B absorbs the free run `[C]`, producing the 48-byte span. -/
theorem C4_rightward_coalesce_witness :
    (WFb hABC_freeC [8, 32, 56] = true ∧
      ([8, 32, 56] : List Nat) = [8] ++ 32 :: [56] ∧
      ([8, 32, 56] : List Nat).length + 1 < 100) ∧
    (∃ h3,
      myfree 100 hABC_freeC (32 + HEADER_SIZE) = some h3 ∧
      h3.nused = hABC_freeC.nused ∧
      isfree h3 32 = true ∧
      getsize h3 32 = getsize hABC_freeC 32 +
        ((([56] : List Nat).takeWhile (fun g => isfree hABC_freeC g)).map
          (fun g => getsize hABC_freeC g)).sum ∧
      (∀ b ∈ ([8] : List Nat), word h3 b = word hABC_freeC b) ∧
      WFb h3 ([8] ++ 32 ::
        ([56] : List Nat).dropWhile (fun g => isfree hABC_freeC g)) = true ∧
      LinkedB h3 ([8] ++ 32 ::
        ([56] : List Nat).dropWhile (fun g => isfree hABC_freeC g)) = true) :=
  ⟨⟨by decide, rfl, by decide⟩,
   C4_rightward_coalesce hABC_freeC [8, 32, 56] [8] [56] 32 100 (by decide)
     rfl (by decide)⟩

/-!
## C5 amended
-/

/-- C5 amended: resize grows in place only when the code's signed test
`old_size + neighbor_size − new_size > 32` passes — a threshold on the raw
requested byte count, not on whether absorbing at `needed` bytes leaves a
viable (24-byte) remainder, so requests whose remainder is viable can still
be sent to the copying fallback.  When the test passes, the behavior is as
claimed: the combined region is re-headered in-use at `needed` bytes, the
leftover tail becomes a free block, the same payload address is returned,
and the payload is untouched (stated here for non-shrinking resizes). -/
theorem C5_inplace_threshold (h : Heap) (bl pre post : List Nat)
    (blk nxt new_size fuel : Nat)
    (hwf : WFb h bl = true)
    (hdecomp : bl = pre ++ blk :: nxt :: post)
    (hnfree : isfree h nxt = true)
    (hnew0 : 0 < new_size)
    (hnewW : new_size + 15 < W)
    (hcond : new_size + 32 < getsize h blk + getsize h nxt)
    (hfuel : bl.length + 2 < fuel) :
    ∃ h3, myrealloc fuel h (blk + HEADER_SIZE) new_size = some (h3, blk + HEADER_SIZE) ∧
      h3.nused = h.nused ∧
      getsize h3 blk = roundup new_size ALIGNMENT ∧
      isfree h3 blk = false ∧
      getsize h3 (blk + roundup new_size ALIGNMENT) =
        getsize h blk + getsize h nxt - roundup new_size ALIGNMENT ∧
      isfree h3 (blk + roundup new_size ALIGNMENT) = true ∧
      WFb h3 (pre ++ blk :: (blk + roundup new_size ALIGNMENT) :: post) = true ∧
      LinkedB h3 (pre ++ blk :: (blk + roundup new_size ALIGNMENT) :: post) = true ∧
      (getsize h blk ≤ roundup new_size ALIGNMENT →
        ∀ a, blk < a → a < blk + getsize h blk → h3.mem a = h.mem a) := by
  obtain ⟨h3, hres, -, -, hnu, hgs, hfr, hgt, hft, hw3, hl3, hmem⟩ :=
    myrealloc_inplace_spec h bl pre post blk nxt new_size fuel hwf hdecomp
      hnfree hnew0 hnewW hcond hfuel
  exact ⟨h3, hres, hnu, hgs, hfr, hgt, hft, hw3, hl3, hmem⟩

/-- Witness for C5 amended: on `hPair`, `resize(16, 20)` grows in place,
keeping address 16 and leaving a 24-byte free tail at 40. -/
theorem C5_inplace_threshold_witness :
    (WFb hPair [8, 32] = true ∧
      ([8, 32] : List Nat) = [] ++ 8 :: 32 :: [] ∧
      isfree hPair 32 = true ∧ 0 < 20 ∧ 20 + 15 < W ∧
      20 + 32 < getsize hPair 8 + getsize hPair 32 ∧
      ([8, 32] : List Nat).length + 2 < 100) ∧
    (∃ h3, myrealloc 100 hPair (8 + HEADER_SIZE) 20 = some (h3, 8 + HEADER_SIZE) ∧
      h3.nused = hPair.nused ∧
      getsize h3 8 = roundup 20 ALIGNMENT ∧
      isfree h3 8 = false ∧
      getsize h3 (8 + roundup 20 ALIGNMENT) =
        getsize hPair 8 + getsize hPair 32 - roundup 20 ALIGNMENT ∧
      isfree h3 (8 + roundup 20 ALIGNMENT) = true ∧
      WFb h3 ([] ++ 8 :: (8 + roundup 20 ALIGNMENT) :: []) = true ∧
      LinkedB h3 ([] ++ 8 :: (8 + roundup 20 ALIGNMENT) :: []) = true ∧
      (getsize hPair 8 ≤ roundup 20 ALIGNMENT →
        ∀ a, 8 < a → a < 8 + getsize hPair 8 → h3.mem a = hPair.mem a)) :=
  ⟨⟨by decide, rfl, by decide, by decide, by decide, by decide, by decide⟩,
   C5_inplace_threshold hPair [8, 32] [] [] 8 32 20 100 (by decide) rfl
     (by decide) (by decide) (by decide) (by decide) (by decide)⟩

/-!
## C6
-/

/-- C6: allocate is address-ascending first-fit.  Whenever the free-list
scan finds a fitting block, the allocation succeeds on the LOWEST-addressed
free block whose size is at least `needed`, and the returned pointer is that
block's header address plus the 8-byte header. -/
theorem C6_first_fit (h : Heap) (bl : List Nat) (req fuel blk : Nat)
    (hwf : WFb h bl = true) (hlink : LinkedB h bl = true)
    (hfuel : bl.length + 1 < fuel)
    (hreq0 : ¬ req = 0)
    (hg1 : ¬ (roundup req ALIGNMENT + h.nused) % W > h.segment_size)
    (hg2 : ¬ roundup req ALIGNMENT > MAX_REQUEST_SIZE)
    (hneed24 : 24 ≤ roundup req ALIGNMENT)
    (hneed8 : roundup req ALIGNMENT % 8 = 0)
    (hfind : (freelist h bl).find?
      (fun g => decide (roundup req ALIGNMENT ≤ getsize h g)) = some blk) :
    ∃ h2,
      mymalloc fuel h req = some (h2, blk + HEADER_SIZE) ∧
      blk ∈ bl ∧ isfree h blk = true ∧
      roundup req ALIGNMENT ≤ getsize h blk ∧
      (∀ g ∈ bl, isfree h g = true → roundup req ALIGNMENT ≤ getsize h g →
        blk ≤ g) ∧
      isfree h2 blk = false := by
  have hblkfree : blk ∈ freelist h bl := List.mem_of_find?_eq_some hfind
  have hblkbl : blk ∈ bl := (freelist_mem h bl blk hblkfree).1
  have hblkisfree : isfree h blk = true := (freelist_mem h bl blk hblkfree).2
  have hfit : roundup req ALIGNMENT ≤ getsize h blk := by
    have := List.find?_some hfind
    simpa using this
  obtain ⟨pre, post, hdecomp⟩ := List.append_of_mem hblkbl
  obtain ⟨h2, hres, -, -, hfree2, -, -, -⟩ := mymalloc_spec h bl pre post
    req fuel blk hwf hlink hfuel hreq0 hg1 hg2 hneed24 hneed8 hfind hdecomp
  refine ⟨h2, hres, hblkbl, hblkisfree, hfit, ?_, hfree2⟩
  intro g hg hgfree hgfit
  have hsort : (freelist h bl).Pairwise (fun x y => x ≤ y) := by
    obtain ⟨-, -, -, ht⟩ := WFb_unpack h bl hwf
    exact (freelist_sep h bl ht).imp (by omega)
  have hgfl : g ∈ freelist h bl :=
    List.mem_filter.mpr ⟨hg, by simpa using hgfree⟩
  exact find?_min_of_sorted (freelist h bl) _ blk hsort hfind g hgfl
    (by simpa using hgfit)

/-- Witness for C6: on `hFreeTwo` (A in use, B and C free, 24 bytes
each), `allocate(16)` picks the lower-addressed fitting free block 32. -/
theorem C6_first_fit_witness :
    (WFb hFreeTwo [8, 32, 56] = true ∧
      LinkedB hFreeTwo [8, 32, 56] = true ∧
      ([8, 32, 56] : List Nat).length + 1 < 100 ∧ ¬ (16 : Nat) = 0 ∧
      ¬ (roundup 16 ALIGNMENT + hFreeTwo.nused) % W >
        hFreeTwo.segment_size ∧
      ¬ roundup 16 ALIGNMENT > MAX_REQUEST_SIZE ∧
      24 ≤ roundup 16 ALIGNMENT ∧ roundup 16 ALIGNMENT % 8 = 0 ∧
      (freelist hFreeTwo [8, 32, 56]).find?
        (fun g => decide (roundup 16 ALIGNMENT ≤ getsize hFreeTwo g)) =
        some 32) ∧
    (∃ h2,
      mymalloc 100 hFreeTwo 16 = some (h2, 32 + HEADER_SIZE) ∧
      32 ∈ ([8, 32, 56] : List Nat) ∧ isfree hFreeTwo 32 = true ∧
      roundup 16 ALIGNMENT ≤ getsize hFreeTwo 32 ∧
      (∀ g ∈ ([8, 32, 56] : List Nat), isfree hFreeTwo g = true →
        roundup 16 ALIGNMENT ≤ getsize hFreeTwo g → 32 ≤ g) ∧
      isfree h2 32 = false) :=
  ⟨⟨by decide, by decide, by decide, by decide, by decide, by decide,
    by decide, by decide, by decide⟩,
   C6_first_fit hFreeTwo [8, 32, 56] 16 100 32 (by decide) (by decide)
     (by decide) (by decide) (by decide) (by decide) (by decide) (by decide)
     (by decide)⟩

/-!
## C9 amended
-/

/-- C9 amended: the free-list invariant — the list contains exactly the
free blocks in increasing address order with `prev_free`/`next_free` of
every member referencing its actual neighbors and null at the ends — is
restored at the end of every successful allocate, release, and resize:
allocate and in-place resize finish in the list maintainer, release and
fallback resize rebuild it through the release path (a resize with
`new_size = 0` or a null old pointer reduces to the release and allocate
branches).  It does NOT hold after a bare `init`, which never runs the
maintainer and leaves whatever bytes the arena held as link words (see
the counterexample). -/
theorem C9_invariant_after_mutators (h : Heap) (bl pre post preN postN : List Nat)
    (req new_size fuel blk nxt blkO blkN : Nat) :
    ((WFb h bl = true ∧ LinkedB h bl = true ∧ bl.length + 1 < fuel ∧
      ¬ req = 0 ∧
      ¬ (roundup req ALIGNMENT + h.nused) % W > h.segment_size ∧
      ¬ roundup req ALIGNMENT > MAX_REQUEST_SIZE ∧
      24 ≤ roundup req ALIGNMENT ∧ roundup req ALIGNMENT % 8 = 0 ∧
      (freelist h bl).find?
        (fun g => decide (roundup req ALIGNMENT ≤ getsize h g)) = some blk ∧
      bl = pre ++ blk :: post) →
      ∃ h2 bl2, mymalloc fuel h req = some (h2, blk + HEADER_SIZE) ∧
        WFb h2 bl2 = true ∧ LinkedB h2 bl2 = true) ∧
    ((WFb h bl = true ∧ bl = pre ++ blk :: post ∧ bl.length + 1 < fuel) →
      ∃ h3, myfree fuel h (blk + HEADER_SIZE) = some h3 ∧
        WFb h3 (pre ++ blk :: post.dropWhile (fun g => isfree h g)) = true ∧
        LinkedB h3 (pre ++ blk :: post.dropWhile (fun g => isfree h g)) = true) ∧
    ((WFb h bl = true ∧ bl = pre ++ blk :: nxt :: post ∧ isfree h nxt = true ∧
      0 < new_size ∧ new_size + 15 < W ∧
      new_size + 32 < getsize h blk + getsize h nxt ∧ bl.length + 2 < fuel) →
      ∃ h3, myrealloc fuel h (blk + HEADER_SIZE) new_size =
          some (h3, blk + HEADER_SIZE) ∧
        WFb h3 (pre ++ blk :: (blk + roundup new_size ALIGNMENT) :: post) = true ∧
        LinkedB h3 (pre ++ blk :: (blk + roundup new_size ALIGNMENT) :: post) = true) ∧
    ((WFb h bl = true ∧ LinkedB h bl = true ∧ bl.length + 3 < fuel ∧
      blkO ∈ bl ∧ isfree h blkO = false ∧ ¬ new_size = 0 ∧ new_size + 15 < W ∧
      ¬ (isfree h (blkO + getsize h blkO) = true ∧
        slong (sub64 ((getsize h blkO + getsize h (blkO + getsize h blkO)) % W)
          new_size) > 32) ∧
      ¬ (roundup new_size ALIGNMENT + h.nused) % W > h.segment_size ∧
      ¬ roundup new_size ALIGNMENT > MAX_REQUEST_SIZE ∧
      (freelist h bl).find?
        (fun g => decide (roundup new_size ALIGNMENT ≤ getsize h g)) = some blkN ∧
      bl = preN ++ blkN :: postN) →
      ∃ h3 bl3, myrealloc fuel h (blkO + HEADER_SIZE) new_size =
          some (h3, blkN + HEADER_SIZE) ∧
        WFb h3 bl3 = true ∧ LinkedB h3 bl3 = true) := by
  refine ⟨?_, ?_, ?_, ?_⟩
  · rintro ⟨hwf, hlink, hfuel, hreq0, hg1, hg2, h24, h8, hfind, hdecomp⟩
    obtain ⟨h2, hres, -, -, -, -, hsp, hns⟩ := mymalloc_spec h bl pre post
      req fuel blk hwf hlink hfuel hreq0 hg1 hg2 h24 h8 hfind hdecomp
    rcases Nat.lt_or_ge (getsize h blk - roundup req ALIGNMENT) 40 with hlt | hge
    · obtain ⟨hw2, hl2, -, -⟩ := hns hlt
      exact ⟨h2, bl, hres, hw2, hl2⟩
    · obtain ⟨hw2, hl2, -, -, -, -⟩ := hsp hge
      exact ⟨h2, _, hres, hw2, hl2⟩
  · rintro ⟨hwf, hdecomp, hfuel⟩
    obtain ⟨h3, hres, -, -, -, -, -, hw3, hl3, -, -⟩ :=
      myfree_spec h bl pre post blk fuel hwf hdecomp hfuel
    exact ⟨h3, hres, hw3, hl3⟩
  · rintro ⟨hwf, hdecomp, hnfree, hnew0, hnewW, hcond, hfuel⟩
    obtain ⟨h3, hres, -, -, -, -, -, -, -, hw3, hl3, -⟩ :=
      myrealloc_inplace_spec h bl pre post blk nxt new_size fuel hwf hdecomp
        hnfree hnew0 hnewW hcond hfuel
    exact ⟨h3, hres, hw3, hl3⟩
  · rintro ⟨hwf, hlink, hfuel, hObl, hOused, hnew0, hnewW, hcond, hg1, hg2,
      hfind, hdecN⟩
    obtain ⟨h3, bl3, hres, -, -, -, -, hw3, hl3⟩ :=
      myrealloc_fallback_spec h bl preN postN blkO blkN new_size fuel hwf hlink
        hfuel hObl hOused hnew0 hnewW hcond hg1 hg2 hfind hdecN
    exact ⟨h3, bl3, hres, hw3, hl3⟩

/-- Witness for C9 amended: the allocate branch on the fresh 104-byte
arena, the release branch on `hABC` (releasing B), the in-place resize
branch on `hPair` with `resize(16, 20)`, and the fallback resize branch
on `hPair` with `resize(16, 24)`. -/
theorem C9_invariant_after_mutators_witness :
    (∃ h2 bl2, mymalloc 100 hInit104 24 = some (h2, 8 + HEADER_SIZE) ∧
      WFb h2 bl2 = true ∧ LinkedB h2 bl2 = true) ∧
    (∃ h3, myfree 100 hABC (32 + HEADER_SIZE) = some h3 ∧
      WFb h3 ([8] ++ 32 ::
        ([56] : List Nat).dropWhile (fun g => isfree hABC g)) = true ∧
      LinkedB h3 ([8] ++ 32 ::
        ([56] : List Nat).dropWhile (fun g => isfree hABC g)) = true) ∧
    (∃ h3, myrealloc 100 hPair (8 + HEADER_SIZE) 20 =
        some (h3, 8 + HEADER_SIZE) ∧
      WFb h3 ([] ++ 8 :: (8 + roundup 20 ALIGNMENT) :: []) = true ∧
      LinkedB h3 ([] ++ 8 :: (8 + roundup 20 ALIGNMENT) :: []) = true) ∧
    (∃ h3 bl3, myrealloc 100 hPair (8 + HEADER_SIZE) 24 =
        some (h3, 32 + HEADER_SIZE) ∧
      WFb h3 bl3 = true ∧ LinkedB h3 bl3 = true) :=
  ⟨(C9_invariant_after_mutators hInit104 [8] [] [] [] [] 24 0 100 8 0 0 0).1
    ⟨by decide, by decide, by decide, by decide, by decide, by decide,
     by decide, by decide, by decide, rfl⟩,
   (C9_invariant_after_mutators hABC [8, 32, 56] [8] [56] [] [] 24 0 100 32
      0 0 0).2.1
    ⟨by decide, rfl, by decide⟩,
   (C9_invariant_after_mutators hPair [8, 32] [] [] [] [] 0 20 100 8 32
      0 0).2.2.1
    ⟨by decide, rfl, by decide, by decide, by decide, by decide, by decide⟩,
   (C9_invariant_after_mutators hPair [8, 32] [] [] [8] [] 0 24 100 0 0
      8 32).2.2.2
    ⟨by decide, by decide, by decide, by decide, by decide, by decide,
     by decide, by decide, by decide, by decide, by decide, rfl⟩⟩

/-!
## C8
-/

/-- C8: when resize cannot grow in place (the code's signed threshold test
on the right neighbor fails) and the fallback allocation succeeds, resize
returns the fresh block's payload address — necessarily different from the
old one, as the fresh block was free while the old was in use — the first
`min(old payload size, new_size)` bytes of the new payload equal the old
payload's leading bytes, and the old block is released. -/
theorem C8_fallback_copy (h : Heap) (bl preN postN : List Nat)
    (blkO blkN new_size fuel : Nat)
    (hwf : WFb h bl = true) (hlink : LinkedB h bl = true)
    (hfuel : bl.length + 3 < fuel)
    (hObl : blkO ∈ bl)
    (hOused : isfree h blkO = false)
    (hnew0 : ¬ new_size = 0)
    (hnewW : new_size + 15 < W)
    (hcond : ¬ (isfree h (blkO + getsize h blkO) = true ∧
      slong (sub64 ((getsize h blkO + getsize h (blkO + getsize h blkO)) % W)
        new_size) > 32))
    (hg1 : ¬ (roundup new_size ALIGNMENT + h.nused) % W > h.segment_size)
    (hg2 : ¬ roundup new_size ALIGNMENT > MAX_REQUEST_SIZE)
    (hfind : (freelist h bl).find?
      (fun g => decide (roundup new_size ALIGNMENT ≤ getsize h g)) = some blkN)
    (hdecN : bl = preN ++ blkN :: postN) :
    ∃ h3,
      myrealloc fuel h (blkO + HEADER_SIZE) new_size =
        some (h3, blkN + HEADER_SIZE) ∧
      blkN + HEADER_SIZE ≠ blkO + HEADER_SIZE ∧
      isfree h3 blkO = true ∧
      isfree h3 blkN = false ∧
      (∀ j, j < min (getsize h blkO - HEADER_SIZE) new_size →
        byteAt h3 (blkN + HEADER_SIZE) j = byteAt h (blkO + HEADER_SIZE) j) := by
  obtain ⟨h3, bl3, hres, hne, hfrO, hfrN, hbytes, -, -⟩ :=
    myrealloc_fallback_spec h bl preN postN blkO blkN new_size fuel hwf hlink
      hfuel hObl hOused hnew0 hnewW hcond hg1 hg2 hfind hdecN
  exact ⟨h3, hres, hne, hfrO, hfrN, hbytes⟩

/-- Witness for C8: on `hPair`, `resize(16, 24)` cannot grow in place
(the signed margin is exactly 32), falls back to allocating the free
32-byte block at 32, copies the payload, and releases the old block. -/
theorem C8_fallback_copy_witness :
    (WFb hPair [8, 32] = true ∧ LinkedB hPair [8, 32] = true ∧
      ([8, 32] : List Nat).length + 3 < 100 ∧
      8 ∈ ([8, 32] : List Nat) ∧ isfree hPair 8 = false ∧
      ¬ (24 : Nat) = 0 ∧ 24 + 15 < W ∧
      ¬ (isfree hPair (8 + getsize hPair 8) = true ∧
        slong (sub64 ((getsize hPair 8 + getsize hPair (8 + getsize hPair 8)) % W)
          24) > 32) ∧
      ¬ (roundup 24 ALIGNMENT + hPair.nused) % W > hPair.segment_size ∧
      ¬ roundup 24 ALIGNMENT > MAX_REQUEST_SIZE ∧
      (freelist hPair [8, 32]).find?
        (fun g => decide (roundup 24 ALIGNMENT ≤ getsize hPair g)) = some 32 ∧
      ([8, 32] : List Nat) = [8] ++ 32 :: []) ∧
    (∃ h3,
      myrealloc 100 hPair (8 + HEADER_SIZE) 24 = some (h3, 32 + HEADER_SIZE) ∧
      32 + HEADER_SIZE ≠ 8 + HEADER_SIZE ∧
      isfree h3 8 = true ∧
      isfree h3 32 = false ∧
      (∀ j, j < min (getsize hPair 8 - HEADER_SIZE) 24 →
        byteAt h3 (32 + HEADER_SIZE) j = byteAt hPair (8 + HEADER_SIZE) j)) :=
  ⟨⟨by decide, by decide, by decide, by decide, by decide, by decide,
    by decide, by decide, by decide, by decide, by decide, rfl⟩,
   C8_fallback_copy hPair [8, 32] [8] [] 8 32 24 100 (by decide) (by decide)
     (by decide) (by decide) (by decide) (by decide) (by decide) (by decide)
     (by decide) (by decide) (by decide) rfl⟩

end ExplicitAlloc
